import Mathlib

/-!
# Verification of the ar-mintin core

A shallow embedding of the ar-mintin drill/spaced-repetition engine
(files `src/ostree.rs`, `src/ent_ex.rs`, `src/ent.rs`, `src/sim_ex.rs`)
together with proofs and refutations of the specified properties.

Embedding conventions:
* Rust `Vec<i64>` is modelled as `List Int`; out-of-range reads are
  modelled by `List.getD _ _ 0` and out-of-range writes by `List.set`
  (a no-op out of range) — every use proved about stays in range.
* Rust `while` loops are modelled by structurally recursive functions on
  an explicit fuel argument; each embedding supplies fuel that is proved
  (or evident) to be at least the number of iterations of the source loop,
  so the fuel-exhaustion branch is unreachable at the call sites used.
* Rust `f64` values produced by the random selector are modelled as exact
  rationals; the cast `(sum as f64 * selector()) as i64` is modelled as
  `⌊(sum : ℚ) * u⌋`, which coincides with the Rust truncation for the
  non-negative products that occur (selector values lie in `[0,1)`).
* Rust panics (`assert!`, `assert_eq!`, `Option::unwrap`) are modelled by
  `Except.error` with a dedicated `Panic` type: a `Panic` result stands
  for an aborted process, in contrast to the recoverable `Result` errors
  of the source (e.g. `OutOfRangeError`), which are modelled by their own
  `Except` layer.
-/

/-! ## `src/ostree.rs` — the order-statistics tree -/

/-- The loop `let mut c = 1; while c < n { c *= 2; }` from `OSTree::new`,
with fuel (the loop runs at most `log2 n + 1 ≤ fuel` times for `fuel = n`). -/
def pow2go : Nat → Nat → Nat → Nat
  | 0, _, c => c
  | fuel + 1, n, c => if c < n then pow2go fuel n (2 * c) else c

/-- Tree capacity chosen by `OSTree::new(n)`: the loop result starting at `c = 1`. -/
def pow2ceil (n : Nat) : Nat := pow2go n n 1

/-- `OSTree` from `src/ostree.rs`: an array-backed implicit binary tree. -/
structure OSTree where
  arr : List Int
deriving Repr, DecidableEq

/-- `OSTree::new(n)`: an all-zero array of length `2 * pow2ceil n`. -/
def OSTree.new (n : Nat) : OSTree :=
  ⟨List.replicate (2 * pow2ceil n) 0⟩

/-- `OSTree::sum`: the root entry `arr[1]`. -/
def OSTree.sum (t : OSTree) : Int := t.arr.getD 1 0

/-- The loop of `OSTree::add`: `while idx > 0 { arr[idx] += sum; idx /= 2 }`. -/
def addGo : Nat → List Int → Nat → Int → List Int
  | 0, arr, _, _ => arr
  | fuel + 1, arr, idx, s =>
    if 0 < idx then addGo fuel (arr.set idx (arr.getD idx 0 + s)) (idx / 2) s else arr

/-- `OSTree::add(idx, sum)`: adds `sum` along the ancestor chain of leaf `idx`.
The starting position `idx + len/2` also serves as (sufficient) fuel. -/
def OSTree.add (t : OSTree) (idx : Nat) (s : Int) : OSTree :=
  ⟨addGo (idx + t.arr.length / 2) t.arr (idx + t.arr.length / 2) s⟩

/-- `OSTree::value_at(at)`: the leaf read `arr[at + len/2]`. -/
def OSTree.value_at (t : OSTree) (i : Nat) : Int :=
  t.arr.getD (i + t.arr.length / 2) 0

/-- `OSTree::assign(idx, val)`: point update via the delta to the old value. -/
def OSTree.assign (t : OSTree) (idx : Nat) (val : Int) : OSTree :=
  t.add idx (val - t.value_at idx)

/-- The loop of `OSTree::rank`; `p` is the left child of the current node. -/
def rankGo : Nat → List Int → Nat → Nat → Int → Nat
  | 0, _, c, p, _ => (p - c) / 2
  | fuel + 1, arr, c, p, val =>
    if p < c then
      (if arr.getD p 0 ≤ val then rankGo fuel arr c ((p + 1) * 2) (val - arr.getD p 0)
       else rankGo fuel arr c (p * 2) val)
    else (p - c) / 2

/-- `OSTree::rank(val)`: find the leaf index whose cumulative interval holds `val`. -/
def OSTree.rank (t : OSTree) (val : Int) : Nat :=
  rankGo t.arr.length t.arr t.arr.length 2 val

/-- `OSTree::multiply(coef)`: scales every stored cell. -/
def OSTree.multiply (t : OSTree) (coef : Int) : OSTree :=
  ⟨t.arr.map (· * coef)⟩

/-! ### Basic facts about `pow2ceil` -/

theorem pow2go_spec : ∀ (fuel n c : Nat), n ≤ c * 2 ^ fuel →
    ∃ j, pow2go fuel n c = c * 2 ^ j ∧ n ≤ c * 2 ^ j
  | 0, n, c, h => ⟨0, by simp [pow2go], by simpa using h⟩
  | fuel + 1, n, c, h => by
    unfold pow2go
    by_cases hc : c < n
    · simp only [hc, if_true]
      have h2 : n ≤ (2 * c) * 2 ^ fuel := by
        rw [pow_succ] at h; nlinarith [h]
      obtain ⟨j, hj, hle⟩ := pow2go_spec fuel n (2 * c) h2
      exact ⟨j + 1, by rw [hj]; ring, by rw [pow_succ]; nlinarith [hle]⟩
    · exact ⟨0, by simp [hc], by simpa using Nat.le_of_not_lt hc⟩

theorem pow2ceil_spec (n : Nat) : ∃ k, pow2ceil n = 2 ^ k ∧ n ≤ 2 ^ k := by
  obtain ⟨j, hj, hle⟩ := pow2go_spec n n 1 (by simpa using (Nat.lt_two_pow n).le)
  exact ⟨j, by simpa using hj, by simpa using hle⟩

/-! ### Characterisation of `addGo`: it adds `s` exactly on the ancestor chain.

Position `j` is on the chain of `m` iff `j = m / 2 ^ t` for some `t` and `j > 0`
(the loop stops before touching position 0). -/

theorem addGo_length : ∀ (fuel : Nat) (arr : List Int) (m : Nat) (s : Int),
    (addGo fuel arr m s).length = arr.length
  | 0, _, _, _ => rfl
  | fuel + 1, arr, m, s => by
    unfold addGo
    by_cases hm : 0 < m
    · simp only [hm, if_true]
      rw [addGo_length fuel _ (m / 2) s, List.length_set]
    · simp [hm]

theorem getD_set_self (l : List Int) (i : Nat) (v : Int) (h : i < l.length) :
    (l.set i v).getD i 0 = v := by
  simp [List.getD_eq_getElem?_getD, List.getElem?_set_self', h]

theorem getD_set_ne (l : List Int) (i j : Nat) (v : Int) (h : i ≠ j) :
    (l.set i v).getD j 0 = l.getD j 0 := by
  simp [List.getD_eq_getElem?_getD, List.getElem?_set_ne h]

theorem set_of_length_le (l : List Int) (i : Nat) (v : Int) (h : l.length ≤ i) :
    l.set i v = l :=
  List.set_eq_of_length_le h

theorem anc_shift (m j : Nat) (hij : j ≠ m) :
    (∃ t, m / 2 / 2 ^ t = j) ↔ (∃ t, m / 2 ^ t = j) := by
  constructor
  · rintro ⟨t, ht⟩
    refine ⟨t + 1, ?_⟩
    rw [pow_succ, mul_comm, ← Nat.div_div_eq_div_mul]
    exact ht
  · rintro ⟨t, ht⟩
    cases t with
    | zero =>
      have hm : m = j := by simpa using ht
      exact absurd hm.symm hij
    | succ t' =>
      refine ⟨t', ?_⟩
      rw [← ht, pow_succ, mul_comm, Nat.div_div_eq_div_mul]

/-- Positions off the ancestor chain of `m` are untouched by the `add` loop. -/
theorem addGo_getD_ne : ∀ (fuel : Nat) (arr : List Int) (m : Nat) (s : Int) (j : Nat),
    ¬(0 < j ∧ ∃ t, m / 2 ^ t = j) →
    (addGo fuel arr m s).getD j 0 = arr.getD j 0
  | 0, _, _, _, _, _ => rfl
  | fuel + 1, arr, m, s, j, hanc => by
    unfold addGo
    by_cases hm0 : 0 < m
    · simp only [hm0, if_true]
      have hj0 : ¬ j = m := by
        rintro rfl
        exact hanc ⟨hm0, 0, by simp⟩
      by_cases hj : 0 < j
      · have hanc' : ¬(0 < j ∧ ∃ t, m / 2 / 2 ^ t = j) := by
          rintro ⟨h1, h2⟩
          exact hanc ⟨h1, (anc_shift m j hj0).mp h2⟩
        rw [addGo_getD_ne fuel _ (m / 2) s j hanc']
        exact getD_set_ne arr m j _ (fun h => hj0 h.symm)
      · -- j = 0: position 0 is never written (the loop stops at idx = 0)
        have hz : j = 0 := by omega
        subst hz
        have hanc' : ¬((0:Nat) < 0 ∧ ∃ t, m / 2 / 2 ^ t = 0) := by rintro ⟨h, -⟩; omega
        rw [addGo_getD_ne fuel _ (m / 2) s 0 hanc']
        exact getD_set_ne arr m 0 _ (by omega)
    · simp [hm0]

/-- Positions on the ancestor chain of `m` (within bounds) gain exactly `s`. -/
theorem addGo_getD_anc : ∀ (fuel : Nat) (arr : List Int) (m : Nat) (s : Int) (j : Nat),
    m ≤ fuel → 0 < j → j < arr.length → (∃ t, m / 2 ^ t = j) →
    (addGo fuel arr m s).getD j 0 = arr.getD j 0 + s
  | 0, arr, m, s, j, hm, hj, _, hanc => by
    obtain ⟨t, ht⟩ := hanc
    have : m = 0 := Nat.le_zero.mp hm
    subst this
    simp [Nat.zero_div] at ht
    omega
  | fuel + 1, arr, m, s, j, hm, hj, hlen, hanc => by
    unfold addGo
    have hm0 : 0 < m := by
      rcases Nat.eq_zero_or_pos m with h | h
      · obtain ⟨t, ht⟩ := hanc
        subst h
        simp [Nat.zero_div] at ht
        omega
      · exact h
    simp only [hm0, if_true]
    by_cases hij : j = m
    · subst hij
      have hnot : ¬(0 < j ∧ ∃ t, j / 2 / 2 ^ t = j) := by
        rintro ⟨-, t, ht⟩
        have : j / 2 / 2 ^ t ≤ j / 2 := Nat.div_le_self _ _
        omega
      rw [addGo_getD_ne fuel _ (j / 2) s j hnot]
      exact getD_set_self arr j _ hlen
    · have hanc' : ∃ t, m / 2 / 2 ^ t = j := (anc_shift m j hij).mpr hanc
      have hfuel : m / 2 ≤ fuel := by omega
      rw [addGo_getD_anc fuel _ (m / 2) s j hfuel hj (by rwa [List.length_set]) hanc']
      rw [getD_set_ne arr m j _ (fun h => hij h.symm)]

/-! ### Well-formedness of a tree

`WFk t k`: the array has length `2^(k+1)`, every internal node holds the sum
of its two children, and every leaf is non-negative.  This is the invariant
established by `OSTree::new` and preserved by `assign` with a non-negative
value — the only way the rest of the program writes into a tree. -/

def OSTree.WFk (t : OSTree) (k : Nat) : Prop :=
  t.arr.length = 2 ^ (k + 1) ∧
  (∀ q, q < 2 ^ k → 1 ≤ q →
    t.arr.getD q 0 = t.arr.getD (2 * q) 0 + t.arr.getD (2 * q + 1) 0) ∧
  (∀ i, i < 2 ^ (k + 1) → 2 ^ k ≤ i → 0 ≤ t.arr.getD i 0)

instance (t : OSTree) (k : Nat) : Decidable (t.WFk k) := by
  unfold OSTree.WFk
  infer_instance

theorem WFk_half (t : OSTree) (k : Nat) (h : t.WFk k) : t.arr.length / 2 = 2 ^ k := by
  rw [h.1, pow_succ]
  omega

theorem getD_oob (l : List Int) (i : Nat) (h : l.length ≤ i) : l.getD i 0 = 0 :=
  List.getD_eq_default l 0 h

theorem value_at_nonneg (t : OSTree) (k : Nat) (h : t.WFk k) (i : Nat) :
    0 ≤ t.value_at i := by
  unfold OSTree.value_at
  rw [WFk_half t k h]
  by_cases hi : i + 2 ^ k < 2 ^ (k + 1)
  · exact h.2.2 (i + 2 ^ k) hi (by omega)
  · have hlen : t.arr.length ≤ i + 2 ^ k := by rw [h.1]; omega
    rw [getD_oob _ _ hlen]

/-- Every internal node's value is the sum over the leaf positions below it. -/
theorem WFk_subtree (t : OSTree) (k : Nat) (h : t.WFk k) :
    ∀ (d q : Nat), 1 ≤ q → 2 ^ k ≤ q * 2 ^ d → (q + 1) * 2 ^ d ≤ 2 ^ (k + 1) →
    t.arr.getD q 0 = ∑ j in Finset.Ico (q * 2 ^ d) ((q + 1) * 2 ^ d), t.arr.getD j 0 := by
  intro d
  induction d with
  | zero =>
    intro q hq hlo hhi
    simp [Finset.sum_Ico_eq_sum_range]
  | succ d ih =>
    intro q hq hlo hhi
    have hqk : q < 2 ^ k := by
      have h1 : (q + 1) * 2 ≤ (q + 1) * 2 ^ (d + 1) :=
        Nat.mul_le_mul_left _ (by have := Nat.one_le_two_pow (n := d); rw [pow_succ]; omega)
      have h2 : 2 ^ (k + 1) = 2 ^ k * 2 := by rw [pow_succ]
      omega
    have hnode := h.2.1 q hqk hq
    have hL := ih (2 * q) (by omega)
      (by rw [pow_succ] at hlo; calc 2 ^ k ≤ q * (2 ^ d * 2) := hlo
            _ = 2 * q * 2 ^ d := by ring)
      (by rw [pow_succ] at hhi
          calc (2 * q + 1) * 2 ^ d ≤ (q + 1) * (2 ^ d * 2) := by nlinarith [Nat.one_le_two_pow (n := d)]
            _ ≤ 2 ^ (k + 1) := hhi)
    have hR := ih (2 * q + 1) (by omega)
      (by rw [pow_succ] at hlo
          calc 2 ^ k ≤ q * (2 ^ d * 2) := hlo
            _ ≤ (2 * q + 1) * 2 ^ d := by nlinarith)
      (by rw [pow_succ] at hhi
          calc (2 * q + 1 + 1) * 2 ^ d = (q + 1) * (2 ^ d * 2) := by ring
            _ ≤ 2 ^ (k + 1) := hhi)
    rw [hnode, hL, hR]
    have e1 : 2 * q * 2 ^ d = q * 2 ^ (d + 1) := by rw [pow_succ]; ring
    have e2 : (2 * q + 1 + 1) * 2 ^ d = (q + 1) * 2 ^ (d + 1) := by rw [pow_succ]; ring
    rw [e1, e2]
    exact Finset.sum_Ico_consecutive _
      (by rw [← e1]; nlinarith [Nat.one_le_two_pow (n := d)])
      (by rw [← e2]; nlinarith [Nat.one_le_two_pow (n := d)])

/-- The root is the sum of all leaf values. -/
theorem WFk_sum_leaves (t : OSTree) (k : Nat) (h : t.WFk k) :
    t.sum = ∑ i in Finset.range (2 ^ k), t.value_at i := by
  have := WFk_subtree t k h k 1 le_rfl (by simp) (by simp [pow_succ]; omega)
  simp only [one_mul] at this
  unfold OSTree.sum
  rw [this]
  rw [Finset.sum_Ico_eq_sum_range]
  have hr : (1 + 1) * 2 ^ k - 2 ^ k = 2 ^ k := by omega
  rw [hr]
  apply Finset.sum_congr rfl
  intro i _
  unfold OSTree.value_at
  rw [WFk_half t k h, Nat.add_comm]

/-! ### Point updates: `assign` rewrites one leaf and fixes all ancestor sums -/

theorem assign_arr_length (t : OSTree) (i : Nat) (v : Int) :
    (t.assign i v).arr.length = t.arr.length := by
  unfold OSTree.assign OSTree.add
  exact addGo_length _ _ _ _

/-- Helper: the leaf position of index `i` under `WFk _ k` is `i + 2 ^ k`. -/
theorem value_at_pos (t : OSTree) (k : Nat) (h : t.WFk k) (i : Nat) :
    t.value_at i = t.arr.getD (i + 2 ^ k) 0 := by
  unfold OSTree.value_at
  rw [WFk_half t k h]

theorem assign_value_at_self (t : OSTree) (k : Nat) (h : t.WFk k) (i : Nat) (v : Int)
    (hi : i < 2 ^ k) : (t.assign i v).value_at i = v := by
  have hlen2 : (t.assign i v).arr.length = t.arr.length := assign_arr_length t i v
  unfold OSTree.value_at
  rw [hlen2, WFk_half t k h]
  unfold OSTree.assign OSTree.add
  rw [WFk_half t k h]
  have hanc : ∃ u, (i + 2 ^ k) / 2 ^ u = i + 2 ^ k := ⟨0, by simp⟩
  have hlt : i + 2 ^ k < t.arr.length := by rw [h.1, pow_succ]; omega
  rw [addGo_getD_anc _ _ _ _ _ le_rfl (by positivity) hlt hanc]
  rw [value_at_pos t k h]
  ring

/-- `assign` leaves every other leaf untouched. -/
theorem assign_value_at_ne (t : OSTree) (k : Nat) (h : t.WFk k) (i j : Nat) (v : Int)
    (hi : i < 2 ^ k) (hne : j ≠ i) : (t.assign i v).value_at j = t.value_at j := by
  have hlen2 : (t.assign i v).arr.length = t.arr.length := assign_arr_length t i v
  unfold OSTree.value_at
  rw [hlen2, WFk_half t k h]
  unfold OSTree.assign OSTree.add
  rw [WFk_half t k h]
  by_cases hj : j < 2 ^ k
  · have hnotanc : ¬(0 < j + 2 ^ k ∧ ∃ u, (i + 2 ^ k) / 2 ^ u = j + 2 ^ k) := by
      rintro ⟨-, u, hu⟩
      cases u with
      | zero => simp at hu; omega
      | succ u' =>
        have h1 : (i + 2 ^ k) / 2 ^ (u' + 1) ≤ (i + 2 ^ k) / 2 := by
          rw [pow_succ, mul_comm, ← Nat.div_div_eq_div_mul]
          exact Nat.div_le_self _ _
        have h2 : (i + 2 ^ k) / 2 < 2 ^ k := by omega
        omega
    rw [addGo_getD_ne _ _ _ _ _ hnotanc]
  · have hlen : t.arr.length ≤ j + 2 ^ k := by rw [h.1, pow_succ]; omega
    rw [getD_oob _ _ (by rwa [addGo_length]), getD_oob _ _ hlen]

theorem WFk_assign (t : OSTree) (k : Nat) (h : t.WFk k) (i : Nat) (v : Int)
    (hi : i < 2 ^ k) (hv : 0 ≤ v) : (t.assign i v).WFk k := by
  have hlen2 : (t.assign i v).arr.length = t.arr.length := assign_arr_length t i v
  have harr : (t.assign i v).arr = addGo (i + 2 ^ k) t.arr (i + 2 ^ k) (v - t.value_at i) := by
    unfold OSTree.assign OSTree.add
    rw [WFk_half t k h]
  set m := i + 2 ^ k with hm
  set d := v - t.value_at i with hd
  have hmlt : m < 2 ^ (k + 1) := by rw [pow_succ]; omega
  have hmlen : m < t.arr.length := by rw [h.1]; exact hmlt
  refine ⟨by rw [hlen2, h.1], ?_, ?_⟩
  · -- internal node sums
    intro q hqk hq1
    have hql : q < t.arr.length := by rw [h.1, pow_succ]; omega
    have hcl : 2 * q + 1 < t.arr.length := by rw [h.1, pow_succ]; omega
    -- does the chain of m pass through q / its children?
    by_cases hqanc : ∃ u, m / 2 ^ u = q
    · -- q is a proper ancestor: exactly one child is on the chain
      obtain ⟨u, hu⟩ := hqanc
      have hu0 : u ≠ 0 := by
        rintro rfl
        simp at hu
        omega
      obtain ⟨u', rfl⟩ := Nat.exists_eq_succ_of_ne_zero hu0
      have hchild : m / 2 ^ u' = 2 * q ∨ m / 2 ^ u' = 2 * q + 1 := by
        have hstep : m / 2 ^ u' / 2 = q := by
          rw [Nat.div_div_eq_div_mul, ← pow_succ]
          exact hu
        omega
      have honechild : ¬((∃ s, m / 2 ^ s = 2 * q) ∧ (∃ s', m / 2 ^ s' = 2 * q + 1)) := by
        rintro ⟨⟨s, hs⟩, ⟨s', hs'⟩⟩
        rcases Nat.lt_trichotomy s s' with hlt | heq | hgt
        · have hkey : m / 2 ^ s' = 2 * q / 2 ^ (s' - s) := by
            have hexp : s + (s' - s) = s' := by omega
            rw [← hs, Nat.div_div_eq_div_mul, ← pow_add, hexp]
          have hle : 2 * q / 2 ^ (s' - s) ≤ 2 * q / 2 := by
            apply Nat.div_le_div_left
            · have h21 : (2:Nat) ^ 1 ≤ 2 ^ (s' - s) := Nat.pow_le_pow_right (by omega) (by omega)
              simpa using h21
            · omega
          omega
        · rw [heq, hs'] at hs
          omega
        · have hkey : m / 2 ^ s = (2 * q + 1) / 2 ^ (s - s') := by
            have hexp : s' + (s - s') = s := by omega
            rw [← hs', Nat.div_div_eq_div_mul, ← pow_add, hexp]
          have hle : (2 * q + 1) / 2 ^ (s - s') ≤ (2 * q + 1) / 2 := by
            apply Nat.div_le_div_left
            · have h21 : (2:Nat) ^ 1 ≤ 2 ^ (s - s') := Nat.pow_le_pow_right (by omega) (by omega)
              simpa using h21
            · omega
          omega
      rw [harr]
      rw [addGo_getD_anc _ _ _ _ _ le_rfl (by omega) hql ⟨u' + 1, hu⟩]
      rcases hchild with hL | hR
      · have hnotR : ¬(0 < 2 * q + 1 ∧ ∃ s, m / 2 ^ s = 2 * q + 1) := by
          rintro ⟨-, hs⟩
          exact honechild ⟨⟨u', hL⟩, hs⟩
        rw [addGo_getD_anc _ _ _ _ _ le_rfl (by omega) (by omega) ⟨u', hL⟩]
        rw [addGo_getD_ne _ _ _ _ _ hnotR]
        rw [h.2.1 q hqk hq1]
        ring
      · have hnotL : ¬(0 < 2 * q ∧ ∃ s, m / 2 ^ s = 2 * q) := by
          rintro ⟨-, hs⟩
          exact honechild ⟨hs, ⟨u', hR⟩⟩
        rw [addGo_getD_anc _ _ _ _ _ le_rfl (by omega) hcl ⟨u', hR⟩]
        rw [addGo_getD_ne _ _ _ _ _ hnotL]
        rw [h.2.1 q hqk hq1]
        ring
    · -- q is not on the chain: neither child is
      have hnotq : ¬(0 < q ∧ ∃ u, m / 2 ^ u = q) := by rintro ⟨-, hu⟩; exact hqanc hu
      have hnotL : ¬(0 < 2 * q ∧ ∃ s, m / 2 ^ s = 2 * q) := by
        rintro ⟨-, s, hs⟩
        refine hqanc ⟨s + 1, ?_⟩
        have hstep : m / 2 ^ (s + 1) = m / 2 ^ s / 2 := by
          rw [Nat.div_div_eq_div_mul, ← pow_succ]
        rw [hstep, hs]
        omega
      have hnotR : ¬(0 < 2 * q + 1 ∧ ∃ s, m / 2 ^ s = 2 * q + 1) := by
        rintro ⟨-, s, hs⟩
        refine hqanc ⟨s + 1, ?_⟩
        have hstep : m / 2 ^ (s + 1) = m / 2 ^ s / 2 := by
          rw [Nat.div_div_eq_div_mul, ← pow_succ]
        rw [hstep, hs]
        omega
      rw [harr, addGo_getD_ne _ _ _ _ _ hnotq, addGo_getD_ne _ _ _ _ _ hnotL,
        addGo_getD_ne _ _ _ _ _ hnotR]
      exact h.2.1 q hqk hq1
  · -- leaves stay non-negative
    intro x hx1 hx2
    by_cases hxm : x = m
    · subst hxm
      have : (t.assign i v).arr.getD m 0 = v := by
        rw [harr, addGo_getD_anc _ _ _ _ _ le_rfl (by omega) hmlen ⟨0, by simp⟩]
        rw [hd, value_at_pos t k h, ← hm]
        ring
      rw [this]
      exact hv
    · have hnot : ¬(0 < x ∧ ∃ u, m / 2 ^ u = x) := by
        rintro ⟨-, u, hu⟩
        cases u with
        | zero => simp at hu; exact hxm hu.symm
        | succ u' =>
          have h1 : m / 2 ^ (u' + 1) ≤ m / 2 := by
            rw [pow_succ, mul_comm, ← Nat.div_div_eq_div_mul]
            exact Nat.div_le_self _ _
          have h2 : m / 2 < 2 ^ k := by omega
          omega
      rw [harr, addGo_getD_ne _ _ _ _ _ hnot]
      exact h.2.2 x hx1 hx2

theorem assign_sum (t : OSTree) (k : Nat) (h : t.WFk k) (i : Nat) (v : Int)
    (hi : i < 2 ^ k) : (t.assign i v).sum = t.sum + (v - t.value_at i) := by
  have harr : (t.assign i v).arr = addGo (i + 2 ^ k) t.arr (i + 2 ^ k) (v - t.value_at i) := by
    unfold OSTree.assign OSTree.add
    rw [WFk_half t k h]
  have hanc : ∃ u, (i + 2 ^ k) / 2 ^ u = 1 := by
    refine ⟨k, ?_⟩
    rw [Nat.add_div_right _ (by positivity), Nat.div_eq_of_lt hi]
  have hlen1 : 1 < t.arr.length := by
    rw [h.1, pow_succ]
    have := Nat.one_le_two_pow (n := k)
    omega
  unfold OSTree.sum
  rw [harr, addGo_getD_anc _ _ _ _ _ le_rfl (by omega) hlen1 hanc]

theorem getD_replicate (m j : Nat) : (List.replicate m (0 : Int)).getD j 0 = 0 := by
  by_cases h : j < m <;>
    simp [List.getD_eq_getElem?_getD, List.getElem?_replicate, h]

/-- A fresh tree is well-formed, can hold `n` leaves, and is all-zero. -/
theorem WFk_new (n : Nat) : ∃ k, (OSTree.new n).WFk k ∧ n ≤ 2 ^ k := by
  obtain ⟨k, hk, hle⟩ := pow2ceil_spec n
  refine ⟨k, ⟨?_, ?_, ?_⟩, hle⟩
  · simp [OSTree.new, hk, pow_succ]
    ring
  · intro q _ _
    simp only [OSTree.new, getD_replicate]
    ring
  · intro i _ _
    simp only [OSTree.new, getD_replicate]
    exact le_rfl

theorem new_value_at (n i : Nat) : (OSTree.new n).value_at i = 0 := by
  simp [OSTree.new, OSTree.value_at, getD_replicate]

theorem new_sum (n : Nat) : (OSTree.new n).sum = 0 := by
  simp [OSTree.new, OSTree.sum, getD_replicate]

/-! ### Correctness of `rank` -/

theorem rankGo_exit (fuel : Nat) (arr : List Int) (c p : Nat) (val : Int) (h : c ≤ p) :
    rankGo fuel arr c p val = (p - c) / 2 := by
  cases fuel with
  | zero => rfl
  | succ f =>
    unfold rankGo
    rw [if_neg (by omega)]

/-- The heart of `rank`: descending from node `q` (whose leaf span is
`[q * 2 ^ d, (q + 1) * 2 ^ d)` in array positions) with `0 ≤ val < arr[q]`
lands on the unique leaf whose cumulative interval contains `val`. -/
theorem rankGo_correct (t : OSTree) (k : Nat) (h : t.WFk k) :
    ∀ (d fuel q : Nat) (val : Int), d ≤ fuel →
    1 ≤ q → 2 ^ k ≤ q * 2 ^ d → (q + 1) * 2 ^ d ≤ 2 ^ (k + 1) →
    0 ≤ val → val < t.arr.getD q 0 →
    ∃ L, rankGo fuel t.arr t.arr.length (2 * q) val = L - 2 ^ k ∧
      q * 2 ^ d ≤ L ∧ L < (q + 1) * 2 ^ d ∧
      (∑ j in Finset.Ico (q * 2 ^ d) L, t.arr.getD j 0) ≤ val ∧
      val < (∑ j in Finset.Ico (q * 2 ^ d) L, t.arr.getD j 0) + t.arr.getD L 0 := by
  intro d
  induction d with
  | zero =>
    intro fuel q val _ hq1 hlo hhi h0 hval
    simp only [pow_zero, mul_one] at hlo hhi ⊢
    have hp : t.arr.length ≤ 2 * q := by rw [h.1, pow_succ]; omega
    refine ⟨q, ?_, le_rfl, by omega, ?_, ?_⟩
    · rw [rankGo_exit _ _ _ _ _ hp, h.1, pow_succ]
      omega
    · rw [Finset.Ico_self, Finset.sum_empty]
      exact h0
    · rw [Finset.Ico_self, Finset.sum_empty, zero_add]
      exact hval
  | succ d ih =>
    intro fuel q val hfuel hq1 hlo hhi h0 hval
    have hqk : q < 2 ^ k := by
      have h1 : (q + 1) * 2 ≤ (q + 1) * 2 ^ (d + 1) :=
        Nat.mul_le_mul_left _ (by have := Nat.one_le_two_pow (n := d); rw [pow_succ]; omega)
      have h2 : 2 ^ (k + 1) = 2 ^ k * 2 := by rw [pow_succ]
      omega
    have hplt : 2 * q < t.arr.length := by rw [h.1, pow_succ]; omega
    obtain ⟨f, rfl⟩ := Nat.exists_eq_succ_of_ne_zero (n := fuel) (by omega)
    have hnode := h.2.1 q hqk hq1
    have h2d1 : (1:Nat) ≤ 2 ^ d := Nat.one_le_two_pow
    unfold rankGo
    rw [if_pos hplt]
    by_cases hbr : t.arr.getD (2 * q) 0 ≤ val
    · -- descend right
      rw [if_pos hbr]
      have hvR : val - t.arr.getD (2 * q) 0 < t.arr.getD (2 * q + 1) 0 := by
        omega
      have hloR : 2 ^ k ≤ (2 * q + 1) * 2 ^ d := by
        rw [pow_succ] at hlo
        nlinarith
      have hhiR : (2 * q + 1 + 1) * 2 ^ d ≤ 2 ^ (k + 1) := by
        rw [pow_succ] at hhi
        nlinarith
      have hrec := ih f (2 * q + 1) (val - t.arr.getD (2 * q) 0) (by omega) (by omega)
        hloR hhiR (by omega) hvR
      rw [(by ring : 2 * (2 * q + 1) = (2 * q + 1) * 2)] at hrec
      obtain ⟨L, hL, hL1, hL2, hS1, hS2⟩ := hrec
      have hstart : q * 2 ^ (d + 1) = 2 * q * 2 ^ d := by rw [pow_succ]; ring
      have hmid : 2 * q * 2 ^ d ≤ (2 * q + 1) * 2 ^ d := by nlinarith
      have hsub := WFk_subtree t k h d (2 * q) (by omega)
        (by rw [← hstart]; exact hlo) (le_trans (by nlinarith) hhiR)
      have hsplit : (∑ j in Finset.Ico (q * 2 ^ (d + 1)) L, t.arr.getD j 0) =
          t.arr.getD (2 * q) 0 +
          (∑ j in Finset.Ico ((2 * q + 1) * 2 ^ d) L, t.arr.getD j 0) := by
        rw [hstart, ← Finset.sum_Ico_consecutive (fun j => t.arr.getD j 0) hmid hL1, ← hsub]
      refine ⟨L, hL, by omega, ?_, ?_, ?_⟩
      · calc L < (2 * q + 1 + 1) * 2 ^ d := hL2
          _ = (q + 1) * 2 ^ (d + 1) := by rw [pow_succ]; ring
      · rw [hsplit]
        omega
      · rw [hsplit]
        omega
    · -- descend left
      rw [if_neg hbr]
      have hvL : val < t.arr.getD (2 * q) 0 := by omega
      have hloL : 2 ^ k ≤ 2 * q * 2 ^ d := by
        rw [pow_succ] at hlo
        nlinarith
      have hhiL : (2 * q + 1) * 2 ^ d ≤ 2 ^ (k + 1) := by
        rw [pow_succ] at hhi
        nlinarith
      have hrec := ih f (2 * q) val (by omega) (by omega) hloL hhiL h0 hvL
      rw [(by ring : 2 * (2 * q) = 2 * q * 2)] at hrec
      obtain ⟨L, hL, hL1, hL2, hS1, hS2⟩ := hrec
      have hstart : q * 2 ^ (d + 1) = 2 * q * 2 ^ d := by rw [pow_succ]; ring
      refine ⟨L, hL, by omega, ?_, ?_, ?_⟩
      · calc L < (2 * q + 1) * 2 ^ d := hL2
          _ ≤ (q + 1) * 2 ^ (d + 1) := by rw [pow_succ]; nlinarith
      · rw [hstart]
        exact hS1
      · rw [hstart]
        exact hS2

/-- Prefix sums of the leaf weights (`prefix(i)` in the specification). -/
def OSTree.prefSum (t : OSTree) (i : Nat) : Int :=
  ∑ j in Finset.range i, t.value_at j

theorem rank_correct (t : OSTree) (k : Nat) (h : t.WFk k) (val : Int)
    (h0 : 0 ≤ val) (hlt : val < t.sum) :
    t.rank val < 2 ^ k ∧
    t.prefSum (t.rank val) ≤ val ∧
    val < t.prefSum (t.rank val) + t.value_at (t.rank val) := by
  have hfuel : k ≤ t.arr.length := by
    rw [h.1]
    calc k ≤ 2 ^ k := (Nat.lt_two_pow k).le
      _ ≤ 2 ^ (k + 1) := Nat.pow_le_pow_right (by omega) (by omega)
  have hroot : val < t.arr.getD 1 0 := hlt
  have hrk := rankGo_correct t k h k t.arr.length 1 val hfuel le_rfl
    (by simp) (by rw [pow_succ]; omega) h0 hroot
  obtain ⟨L, hL, hL1, hL2, hS1, hS2⟩ := hrk
  simp only [one_mul] at hL1
  have hrank : t.rank val = L - 2 ^ k := by
    unfold OSTree.rank
    rw [(by norm_num : (2 : Nat) = 2 * 1)]
    exact hL
  have hLrange : 2 ^ k ≤ L ∧ L < 2 ^ (k + 1) := by
    constructor
    · exact hL1
    · calc L < (1 + 1) * 2 ^ k := hL2
        _ = 2 ^ (k + 1) := by rw [pow_succ]; ring
  have hr : t.rank val + 2 ^ k = L := by omega
  have hsum : t.prefSum (t.rank val) = ∑ j in Finset.Ico (2 ^ k) L, t.arr.getD j 0 := by
    unfold OSTree.prefSum
    rw [Finset.sum_Ico_eq_sum_range]
    have hn : L - 2 ^ k = t.rank val := by omega
    rw [hn]
    apply Finset.sum_congr rfl
    intro i _
    rw [value_at_pos t k h, Nat.add_comm]
  have hvalL : t.value_at (t.rank val) = t.arr.getD L 0 := by
    rw [value_at_pos t k h, hr]
  constructor
  · omega
  · constructor
    · rw [hsum]
      simpa using hS1
    · rw [hsum, hvalL]
      simpa using hS2

theorem prefSum_nonneg_mono (t : OSTree) (k : Nat) (h : t.WFk k) (i j : Nat) (hij : i ≤ j) :
    t.prefSum i ≤ t.prefSum j := by
  unfold OSTree.prefSum
  apply Finset.sum_le_sum_of_subset_of_nonneg (Finset.range_subset.mpr hij)
  intro x _ _
  exact value_at_nonneg t k h x

theorem prefSum_succ (t : OSTree) (i : Nat) :
    t.prefSum (i + 1) = t.prefSum i + t.value_at i := by
  unfold OSTree.prefSum
  exact Finset.sum_range_succ _ _

/-- The cumulative intervals are disjoint: the index found by `rank` is the
only one whose half-open interval contains `val`. -/
theorem rank_unique (t : OSTree) (k : Nat) (h : t.WFk k) (val : Int)
    (h0 : 0 ≤ val) (hlt : val < t.sum) (i : Nat)
    (h1 : t.prefSum i ≤ val) (h2 : val < t.prefSum i + t.value_at i) :
    i = t.rank val := by
  obtain ⟨hr, hrs1, hrs2⟩ := rank_correct t k h val h0 hlt
  set r := t.rank val with hrdef
  rcases Nat.lt_trichotomy i r with hir | hir | hir
  · exfalso
    have hs : t.prefSum (i + 1) ≤ t.prefSum r := prefSum_nonneg_mono t k h _ _ (by omega)
    rw [prefSum_succ] at hs
    omega
  · exact hir
  · exfalso
    have hs : t.prefSum (r + 1) ≤ t.prefSum i := prefSum_nonneg_mono t k h _ _ (by omega)
    rw [prefSum_succ] at hs
    omega

/-- `rank` never lands on a zero-weight leaf. -/
theorem rank_weight_pos (t : OSTree) (k : Nat) (h : t.WFk k) (val : Int)
    (h0 : 0 ≤ val) (hlt : val < t.sum) : 0 < t.value_at (t.rank val) := by
  obtain ⟨-, hs1, hs2⟩ := rank_correct t k h val h0 hlt
  omega

/-- A `rank 0` query finds the lowest-indexed leaf with positive weight. -/
theorem rank_zero_least (t : OSTree) (k : Nat) (h : t.WFk k) (hlt : 0 < t.sum) :
    0 < t.value_at (t.rank 0) ∧ t.rank 0 < 2 ^ k ∧
    ∀ j, j < t.rank 0 → t.value_at j = 0 := by
  obtain ⟨hr, hs1, hs2⟩ := rank_correct t k h 0 le_rfl hlt
  refine ⟨by omega, hr, ?_⟩
  intro j hj
  have hpre : t.prefSum (t.rank 0) = 0 := by
    have hge : 0 ≤ t.prefSum (t.rank 0) := by
      have := prefSum_nonneg_mono t k h 0 (t.rank 0) (by omega)
      simpa [OSTree.prefSum] using this
    omega
  have hsum0 : ∑ x in Finset.range (t.rank 0), t.value_at x = 0 := hpre
  have hterm := Finset.sum_eq_zero_iff_of_nonneg
    (fun x _ => value_at_nonneg t k h x) |>.mp hsum0
  exact hterm j (Finset.mem_range.mpr hj)

/-! ## `ProgressTable::select_random_entries` (src/ent_ex.rs, lines 287–319)

The selector closure `FnMut() -> f64` is modelled as a stream `Nat → ℚ`
with an explicit cursor that advances once per draw; the Rust expression
`(sum as f64 * selector()) as i64` becomes `⌊(sum : ℚ) * selector cur⌋`. -/

structure TreeBorrow where
  idx : Nat
  val : Int
deriving Repr, DecidableEq

/-- The draw loop `for _ in 0..n { ... }` of `select_random_entries`. -/
def selectGo (selector : Nat → ℚ) :
    Nat → OSTree → Nat → List TreeBorrow → OSTree × Nat × List TreeBorrow
  | 0, tree, cur, borrows => (tree, cur, borrows)
  | n + 1, tree, cur, borrows =>
    if tree.sum = 0 then (tree, cur, borrows)
    else
      let sel : Int := ⌊(tree.sum : ℚ) * selector cur⌋
      let idx := tree.rank sel
      selectGo selector n (tree.assign idx 0) (cur + 1)
        (borrows ++ [⟨idx, tree.value_at idx⟩])

/-- The restoration loop `for i in borrows { tree.assign(i.idx, i.val) }`. -/
def restoreBorrows (t : OSTree) (borrows : List TreeBorrow) : OSTree :=
  borrows.foldl (fun acc b => acc.assign b.idx b.val) t

/-- The whole body of `select_random_entries`, acting on the chosen pool tree:
draw up to `n` entries, zeroing each, then restore all borrowed weights. -/
def selectFromTree (tree : OSTree) (n : Nat) (selector : Nat → ℚ) (cur : Nat) :
    List Nat × OSTree × Nat :=
  let r := selectGo selector n tree cur []
  (r.2.2.map TreeBorrow.idx, restoreBorrows r.1 r.2.2, r.2.1)

/-- Loop invariant for `selectGo` relative to the tree `t0` at call entry. -/
def SelectInv (k : Nat) (t0 t : OSTree) (bs : List TreeBorrow) : Prop :=
  t.WFk k ∧
  (bs.map TreeBorrow.idx).Nodup ∧
  (∀ b ∈ bs, b.idx < 2 ^ k ∧ b.val = t0.value_at b.idx ∧ 0 < b.val ∧ t.value_at b.idx = 0) ∧
  (∀ i, i ∉ bs.map TreeBorrow.idx → t.value_at i = t0.value_at i)

theorem sum_nonneg_of_WFk (t : OSTree) (k : Nat) (h : t.WFk k) : 0 ≤ t.sum := by
  rw [WFk_sum_leaves t k h]
  exact Finset.sum_nonneg (fun i _ => value_at_nonneg t k h i)

theorem selectGo_inv (selector : Nat → ℚ)
    (hsel : ∀ j, 0 ≤ selector j ∧ selector j < 1) (k : Nat) (t0 : OSTree) :
    ∀ (n : Nat) (t : OSTree) (cur : Nat) (bs : List TreeBorrow),
    SelectInv k t0 t bs →
    SelectInv k t0 (selectGo selector n t cur bs).1 (selectGo selector n t cur bs).2.2 ∧
    (selectGo selector n t cur bs).2.2.length ≤ bs.length + n
  | 0, t, cur, bs, hinv => ⟨hinv, by simp [selectGo]⟩
  | n + 1, t, cur, bs, hinv => by
    unfold selectGo
    by_cases hz : t.sum = 0
    · rw [if_pos hz]
      exact ⟨hinv, by simp⟩
    · rw [if_neg hz]
      obtain ⟨hwf, hnd, hbs, hout⟩ := hinv
      have hpos : 0 < t.sum := lt_of_le_of_ne (sum_nonneg_of_WFk t k hwf) (Ne.symm hz)
      set sel : Int := ⌊(t.sum : ℚ) * selector cur⌋ with hseldef
      have hsel0 : 0 ≤ sel := by
        rw [hseldef]
        apply Int.floor_nonneg.mpr
        apply mul_nonneg
        · exact_mod_cast hpos.le
        · exact (hsel cur).1
      have hsellt : sel < t.sum := by
        rw [hseldef]
        apply Int.floor_lt.mpr
        apply mul_lt_of_lt_one_right
        · exact_mod_cast hpos
        · exact (hsel cur).2
      set idx := t.rank sel with hidxdef
      have hidxk : idx < 2 ^ k := (rank_correct t k hwf sel hsel0 hsellt).1
      have hval : 0 < t.value_at idx := rank_weight_pos t k hwf sel hsel0 hsellt
      have hnotmem : idx ∉ bs.map TreeBorrow.idx := by
        intro hmem
        obtain ⟨b, hb, hbeq⟩ := List.mem_map.mp hmem
        have := (hbs b hb).2.2.2
        rw [hbeq] at this
        omega
      have hinv' : SelectInv k t0 (t.assign idx 0) (bs ++ [⟨idx, t.value_at idx⟩]) := by
        refine ⟨WFk_assign t k hwf idx 0 hidxk le_rfl, ?_, ?_, ?_⟩
        · rw [List.map_append]
          simp only [List.map_cons, List.map_nil]
          rw [List.nodup_append]
          exact ⟨hnd, List.nodup_singleton idx, by simpa using hnotmem⟩
        · intro b hb
          rcases List.mem_append.mp hb with hb | hb
          · obtain ⟨h1, h2, h3, h4⟩ := hbs b hb
            refine ⟨h1, h2, h3, ?_⟩
            rw [assign_value_at_ne t k hwf idx b.idx 0 hidxk ?hne]
            · exact h4
            · intro heq
              exact hnotmem (heq ▸ List.mem_map_of_mem TreeBorrow.idx hb)
          · have hb' : b = ⟨idx, t.value_at idx⟩ := by simpa using hb
            subst hb'
            refine ⟨hidxk, hout idx hnotmem, hval, ?_⟩
            exact assign_value_at_self t k hwf idx 0 hidxk
        · intro i hi
          rw [List.map_append] at hi
          simp only [List.map_cons, List.map_nil, List.mem_append, List.mem_singleton] at hi
          push_neg at hi
          rw [assign_value_at_ne t k hwf idx i 0 hidxk hi.2]
          exact hout i hi.1
      have hres := selectGo_inv selector hsel k t0 n (t.assign idx 0) (cur + 1)
        (bs ++ [⟨idx, t.value_at idx⟩]) hinv'
      have hlen : (selectGo selector n (t.assign idx 0) (cur + 1)
          (bs ++ [⟨idx, t.value_at idx⟩])).2.2.length ≤ bs.length + (n + 1) := by
        have h2 := hres.2
        rw [List.length_append] at h2
        simp only [List.length_singleton] at h2
        omega
      exact ⟨hres.1, hlen⟩

theorem restoreBorrows_spec (k : Nat) (t0 : OSTree) :
    ∀ (bs : List TreeBorrow) (t : OSTree), t.WFk k →
    (bs.map TreeBorrow.idx).Nodup →
    (∀ b ∈ bs, b.idx < 2 ^ k ∧ b.val = t0.value_at b.idx ∧ 0 < b.val) →
    (∀ i, i ∉ bs.map TreeBorrow.idx → t.value_at i = t0.value_at i) →
    (∀ i, (restoreBorrows t bs).value_at i = t0.value_at i) ∧ (restoreBorrows t bs).WFk k
  | [], t, hwf, _, _, hout => by
    refine ⟨fun i => ?_, hwf⟩
    · unfold restoreBorrows
      simpa using hout i (by simp)
  | b :: bs, t, hwf, hnd, hbs, hout => by
    have hb := hbs b (by simp)
    have hwf' : (t.assign b.idx b.val).WFk k :=
      WFk_assign t k hwf b.idx b.val hb.1 hb.2.2.le
    have hnd' : (bs.map TreeBorrow.idx).Nodup := by
      rw [List.map_cons, List.nodup_cons] at hnd
      exact hnd.2
    have hbnot : b.idx ∉ bs.map TreeBorrow.idx := by
      rw [List.map_cons, List.nodup_cons] at hnd
      exact hnd.1
    have hout' : ∀ i, i ∉ bs.map TreeBorrow.idx →
        (t.assign b.idx b.val).value_at i = t0.value_at i := by
      intro i hi
      by_cases hieq : i = b.idx
      · subst hieq
        rw [assign_value_at_self t k hwf _ _ hb.1]
        exact hb.2.1
      · rw [assign_value_at_ne t k hwf _ _ _ hb.1 hieq]
        apply hout
        rw [List.map_cons, List.mem_cons]
        push_neg
        exact ⟨hieq, hi⟩
    have hrec := restoreBorrows_spec k t0 bs (t.assign b.idx b.val) hwf' hnd'
      (fun x hx => hbs x (by simp [hx])) hout'
    have hfold : restoreBorrows t (b :: bs) = restoreBorrows (t.assign b.idx b.val) bs := rfl
    rw [hfold]
    exact hrec

/-- Frame/effect contract of the selection body: at most `n` pairwise-distinct
indices, all carrying positive weight at call entry, and on return every leaf
(and hence the total) of the pool tree is exactly as at call entry. -/
theorem selectFromTree_spec (tree : OSTree) (k : Nat) (h : tree.WFk k) (n : Nat)
    (selector : Nat → ℚ) (cur : Nat) (hsel : ∀ j, 0 ≤ selector j ∧ selector j < 1) :
    (selectFromTree tree n selector cur).1.length ≤ n ∧
    (selectFromTree tree n selector cur).1.Nodup ∧
    (∀ i ∈ (selectFromTree tree n selector cur).1, 0 < tree.value_at i) ∧
    (∀ i, (selectFromTree tree n selector cur).2.1.value_at i = tree.value_at i) ∧
    (selectFromTree tree n selector cur).2.1.sum = tree.sum ∧
    (selectFromTree tree n selector cur).2.1.WFk k := by
  have hinit : SelectInv k tree tree [] := by
    refine ⟨h, by simp, by simp, fun i _ => rfl⟩
  have hgo := selectGo_inv selector hsel k tree n tree cur [] hinit
  obtain ⟨⟨hwf1, hnd, hbs, hout⟩, hlen⟩ := hgo
  set r := selectGo selector n tree cur [] with hrdef
  have hrestore := restoreBorrows_spec k tree r.2.2 r.1 hwf1 hnd
    (fun b hb => ⟨(hbs b hb).1, (hbs b hb).2.1, (hbs b hb).2.2.1⟩) hout
  have hleaves := hrestore.1
  have hwf2 := hrestore.2
  have hsf : selectFromTree tree n selector cur =
      (r.2.2.map TreeBorrow.idx, restoreBorrows r.1 r.2.2, r.2.1) := rfl
  rw [hsf]
  simp only [List.length_map]
  refine ⟨by simpa using hlen, hnd, ?_, hleaves, ?_, hwf2⟩
  · intro i hi
    obtain ⟨b, hb, hbeq⟩ := List.mem_map.mp hi
    have hprop := hbs b hb
    rw [← hbeq]
    omega
  · rw [WFk_sum_leaves _ k hwf2, WFk_sum_leaves tree k h]
    exact Finset.sum_congr rfl (fun i _ => hleaves i)

/-! ### Deterministic selection with the constant-0 selector

With a selector that always returns 0, every draw computes `rank 0`, which is
the lowest-indexed leaf of positive weight; zeroing it makes the next draw
return the next such leaf.  Hence the batch is an ascending run of the
positive-weight indices — not the heaviest ones. -/

/-- The indices (leaf slots) currently holding positive weight, ascending. -/
def OSTree.posIdxs (t : OSTree) : List Nat :=
  (List.range (t.arr.length / 2)).filter (fun i => decide (0 < t.value_at i))

theorem posIdxs_pairwise (t : OSTree) : t.posIdxs.Pairwise (· < ·) :=
  (List.pairwise_lt_range _).filter _

theorem mem_posIdxs (t : OSTree) (i : Nat) :
    i ∈ t.posIdxs ↔ i < t.arr.length / 2 ∧ 0 < t.value_at i := by
  unfold OSTree.posIdxs
  rw [List.mem_filter, List.mem_range]
  simp

theorem sorted_min_cons : ∀ (L : List Nat), L.Pairwise (· < ·) → ∀ (r : Nat), r ∈ L →
    (∀ j ∈ L, r ≤ j) → L = r :: L.filter (fun i => decide ¬(i = r))
  | [], _, r, hmem, _ => absurd hmem (List.not_mem_nil r)
  | x :: xs, hpw, r, hmem, hmin => by
    have hxr : x = r := by
      rcases List.mem_cons.mp hmem with h | h
      · exact h.symm
      · have h1 : x < r := (List.pairwise_cons.mp hpw).1 r h
        have h2 : r ≤ x := hmin x (by simp)
        omega
    subst hxr
    have hxs : ∀ i ∈ xs, ¬(i = x) := by
      intro i hi
      have := (List.pairwise_cons.mp hpw).1 i hi
      omega
    have hfx : (x :: xs).filter (fun i => decide ¬(i = x)) = xs := by
      rw [List.filter_cons, if_neg (by simp)]
      apply List.filter_eq_self.mpr
      intro a ha
      simpa using hxs a ha
    rw [hfx]

theorem posIdxs_assign_zero (t : OSTree) (k : Nat) (h : t.WFk k) (r : Nat) (hr : r < 2 ^ k) :
    (t.assign r 0).posIdxs = t.posIdxs.filter (fun i => decide ¬(i = r)) := by
  unfold OSTree.posIdxs
  have hlen : (t.assign r 0).arr.length / 2 = t.arr.length / 2 := by
    rw [assign_arr_length]
  rw [hlen]
  rw [List.filter_filter]
  apply List.filter_congr
  intro i hi
  rw [List.mem_range, WFk_half t k h] at hi
  by_cases hir : i = r
  · subst hir
    rw [assign_value_at_self t k h i 0 hr]
    simp
  · rw [assign_value_at_ne t k h r i 0 hr hir]
    simp [hir]

theorem posIdxs_nil_of_sum_zero (t : OSTree) (k : Nat) (h : t.WFk k) (hz : t.sum = 0) :
    t.posIdxs = [] := by
  rw [WFk_sum_leaves t k h] at hz
  have hall := Finset.sum_eq_zero_iff_of_nonneg
    (fun i _ => value_at_nonneg t k h i) |>.mp hz
  apply List.eq_nil_iff_forall_not_mem.mpr
  intro i hi
  rw [mem_posIdxs, WFk_half t k h] at hi
  have := hall i (Finset.mem_range.mpr hi.1)
  omega

/-- With positive total weight, the positive-index list starts with `rank 0`,
and zeroing that leaf removes exactly the head. -/
theorem posIdxs_head (t : OSTree) (k : Nat) (h : t.WFk k) (hpos : 0 < t.sum) :
    t.posIdxs = t.rank 0 :: (t.assign (t.rank 0) 0).posIdxs := by
  obtain ⟨hv, hr, hleast⟩ := rank_zero_least t k h hpos
  have hmem : t.rank 0 ∈ t.posIdxs := by
    rw [mem_posIdxs, WFk_half t k h]
    exact ⟨hr, hv⟩
  have hmin : ∀ j ∈ t.posIdxs, t.rank 0 ≤ j := by
    intro j hj
    rw [mem_posIdxs] at hj
    by_contra hcon
    have := hleast j (by omega)
    omega
  rw [posIdxs_assign_zero t k h _ hr]
  exact sorted_min_cons t.posIdxs (posIdxs_pairwise t) (t.rank 0) hmem hmin

/-- With the constant-0 selector, `selectGo` draws exactly the first
`n` positive-weight indices, lowest first. -/
theorem selectGo_zero_idxs (k : Nat) :
    ∀ (n : Nat) (t : OSTree), t.WFk k → ∀ (cur : Nat) (bs : List TreeBorrow),
    ((selectGo (fun _ => (0 : ℚ)) n t cur bs).2.2).map TreeBorrow.idx =
      bs.map TreeBorrow.idx ++ t.posIdxs.take n
  | 0, t, h, cur, bs => by
    simp [selectGo]
  | n + 1, t, h, cur, bs => by
    unfold selectGo
    by_cases hz : t.sum = 0
    · rw [if_pos hz, posIdxs_nil_of_sum_zero t k h hz]
      simp
    · rw [if_neg hz]
      have hpos : 0 < t.sum := lt_of_le_of_ne (sum_nonneg_of_WFk t k h) (Ne.symm hz)
      have hfl : ⌊(t.sum : ℚ) * (0 : ℚ)⌋ = 0 := by
        rw [mul_zero, Int.floor_zero]
      simp only [hfl]
      have hwf' : (t.assign (t.rank 0) 0).WFk k :=
        WFk_assign t k h _ 0 (rank_zero_least t k h hpos).2.1 le_rfl
      have hrec := selectGo_zero_idxs k n (t.assign (t.rank 0) 0) hwf' (cur + 1)
        (bs ++ [⟨t.rank 0, t.value_at (t.rank 0)⟩])
      rw [hrec, posIdxs_head t k h hpos]
      rw [List.map_append]
      simp

/-! ## `src/ent_ex.rs` — entries, scores and the progress table

Floating-point policy: `Score::function` (an `exp`/`ln` decay curve) and the
fail-branch blend `(us * (dt0/us).powf(0.5)) as i64` of `ProgressTable::set`
are `f64` computations.  They are modelled as opaque integer-valued
parameters (`scoreFn`, `failBlend`) that every theorem quantifies over:
no claim below depends on the numeric value these produce. -/

/-- Maximum distrust, `pub const UNIT: Score = Score(10000)` (the `Score`
newtype over `i64` is modelled as a bare `Int`). -/
def UNIT : Int := 10000

/-- `ScoreArgs`: static decay-curve parameters.  `degrade_factor : f64` is
carried as an exact rational; it is only ever stored and compared here. -/
structure ScoreArgs where
  degrade_factor : ℚ
  origin : Int
  target : Int
deriving Repr, DecidableEq

/-- `TableEntry`: one catalog item. -/
structure TableEntry where
  lhs : String
  rhs : String
deriving Repr, DecidableEq

/-- `TableEntry::assess`: exact string comparison of the answer with `rhs`. -/
def TableEntry.assess (te : TableEntry) (user_input : String) : Bool :=
  user_input == te.rhs

/-- `ProgressEntry { distrust: Score, pass: bool }`. -/
structure ProgressEntry where
  distrust : Int
  pass : Bool
deriving Repr, DecidableEq

instance : Inhabited ProgressEntry := ⟨⟨0, false⟩⟩

/-- `ProgressTable` (src/ent_ex.rs lines 116–125). -/
structure ProgressTable where
  entries : List ProgressEntry
  capacity : Nat
  cnt_failed : Nat
  tree_passed : OSTree
  tree_failed : OSTree
  age : Int
  score_args : ScoreArgs
deriving Repr, DecidableEq

/-- `OutOfRangeError`, the recoverable error returned by `supply`. -/
inductive OutOfRangeError
  | mk
deriving Repr, DecidableEq

/-- `ProgressTable::tree_from_entries`: build the pool tree of the entries
whose `pass` flag matches. -/
def tree_from_entries (entries : List ProgressEntry) (pass : Bool) : OSTree :=
  entries.enum.foldl
    (fun tree p => if p.2.pass == pass then tree.assign p.1 p.2.distrust else tree)
    (OSTree.new entries.length)

/-- `ProgressTable::unit_score`, with the `f64` curve `Score::function`
abstracted as `scoreFn age inertia args` (`inertia` is the entry count). -/
def ProgressTable.unit_score (scoreFn : Int → Nat → ScoreArgs → Int)
    (pt : ProgressTable) : Int :=
  scoreFn pt.age pt.entries.length pt.score_args

def ProgressTable.get_age (pt : ProgressTable) : Int := pt.age

def ProgressTable.len (pt : ProgressTable) : Nat := pt.entries.length

/-- `ProgressTable::new_partial(entries, capacity, age, score_args)`:
all entries start at the current unit score with `pass = false`. -/
def ProgressTable.new_partial (scoreFn : Int → Nat → ScoreArgs → Int)
    (entries : List TableEntry) (capacity : Nat) (age : Int)
    (score_args : ScoreArgs) : ProgressTable :=
  let n := entries.length
  let unit := scoreFn age n score_args
  { entries := List.replicate n ⟨unit, false⟩
    capacity := capacity
    cnt_failed := n
    tree_passed := OSTree.new capacity
    tree_failed := (List.range n).foldl (fun xt i => xt.assign i unit) (OSTree.new capacity)
    age := age
    score_args := score_args }

/-- `ProgressTable::new`: a fresh full table at age 0. -/
def ProgressTable.new (scoreFn : Int → Nat → ScoreArgs → Int)
    (entries : List TableEntry) (score_args : ScoreArgs) : ProgressTable :=
  ProgressTable.new_partial scoreFn entries entries.length 0 score_args

/-- `ProgressTable::new_empty`. -/
def ProgressTable.new_empty (capacity : Nat) (age : Int) (score_args : ScoreArgs) :
    ProgressTable :=
  { entries := []
    capacity := capacity
    cnt_failed := 0
    tree_passed := OSTree.new capacity
    tree_failed := OSTree.new capacity
    age := age
    score_args := score_args }

/-- `ProgressTable::supply(chunk)` (src/ent_ex.rs lines 267–285): error if the
chunk would exceed the declared capacity, else append, assigning each new
entry's distrust into the pool tree matching its flag. -/
def ProgressTable.supply (pt : ProgressTable) (chunk : List ProgressEntry) :
    Except OutOfRangeError ProgressTable :=
  let m := chunk.length
  let n := pt.entries.length
  if n + m > pt.capacity then
    Except.error OutOfRangeError.mk
  else
    let f := chunk.enum.foldl
      (fun (acc : OSTree × OSTree × Nat) pr =>
        if pr.2.pass then (acc.1.assign (pr.1 + n) pr.2.distrust, acc.2.1, acc.2.2)
        else (acc.1, acc.2.1.assign (pr.1 + n) pr.2.distrust, acc.2.2 + 1))
      (pt.tree_passed, pt.tree_failed, pt.cnt_failed)
    Except.ok { pt with
      entries := pt.entries ++ chunk
      tree_passed := f.1
      tree_failed := f.2.1
      cnt_failed := f.2.2 }

/-- `ProgressTable::select_random_entries(n, pass, selector)`: run the
borrow-and-restore selection body on the chosen pool tree. -/
def ProgressTable.select_random_entries (pt : ProgressTable) (n : Nat) (pass : Bool)
    (selector : Nat → ℚ) (cur : Nat) : List Nat × ProgressTable × Nat :=
  let tree := if pass then pt.tree_passed else pt.tree_failed
  let r := selectFromTree tree n selector cur
  (r.1,
   if pass then { pt with tree_passed := r.2.1 } else { pt with tree_failed := r.2.1 },
   r.2.2)

/-- `ProgressTable::set(idx, pass)` (src/ent_ex.rs lines 321–341).  Note: the
source assigns `dt0` — the distrust read *before* the update — into the pool
tree matching the new flag, and 0 into the other tree.  The `f64` fail branch
`(us * (dt0/us).powf(0.5)) as i64` is abstracted as `failBlend us dt0`. -/
def ProgressTable.set (scoreFn : Int → Nat → ScoreArgs → Int)
    (failBlend : Int → Int → Int) (pt : ProgressTable) (idx : Nat) (pass : Bool) :
    ProgressTable :=
  let us := pt.unit_score scoreFn
  let e0 := pt.entries.getD idx default
  let dt0 := e0.distrust
  let cnt1 := if e0.pass then pt.cnt_failed + 1 else pt.cnt_failed
  let cnt2 := if pass then cnt1 - 1 else cnt1
  let newD := if pass then (dt0 + 1).tdiv 2 else failBlend us dt0
  { pt with
    entries := pt.entries.set idx ⟨newD, pass⟩
    cnt_failed := cnt2
    tree_passed := pt.tree_passed.assign idx (if pass then dt0 else 0)
    tree_failed := pt.tree_failed.assign idx (if !pass then dt0 else 0) }

/-- `ProgressTable::step`: one tick of the global age counter. -/
def ProgressTable.step (pt : ProgressTable) : ProgressTable :=
  { pt with age := pt.age + 1 }

/-! ## Persistence (src/ent_ex.rs lines 92–112 and 182–217)

`ProgressTableView` is the exact payload serialized to the progress file.
Modelled from the spec: the repository's `file_ex.rs` (declared in `lib.rs`
but not present under `src/`) writes `ProgressTableView::new(table, te)` as
JSON and `new_from_file` reads it back; the byte-level JSON round trip is
the identity on the view, so serialization is modelled as producing the
`ProgressTableView` value itself and deserialization as the reconciliation
logic of `new_from_file` applied to that view. -/

structure ProgressTableView where
  entries : List (ProgressEntry × TableEntry)
  age : Int
  score_args : ScoreArgs
deriving Repr, DecidableEq

/-- `ProgressTableView::new(table, te)`: pair each progress entry with its
catalog item (`zip` truncates at the shorter list, as in the source). -/
def ProgressTableView.new (table : ProgressTable) (te : List TableEntry) :
    ProgressTableView :=
  { age := table.age
    score_args := table.score_args
    entries := table.entries.zip te }

/-- The `imap` lookup of `new_from_file`: a `HashMap` filled by inserting each
`(item ↦ entry)` pair in order, so a later insert overwrites an earlier one —
hence the reversed search. -/
def imapFind (pairs : List (ProgressEntry × TableEntry)) (x : TableEntry) :
    Option ProgressEntry :=
  (pairs.reverse.find? (fun p => decide (p.2 = x))).map Prod.fst

/-- `ProgressTable::new_from_file` after the file read and parse: reconcile
the parsed view against the current catalog, matching items by content;
unmatched items get a fresh default score at the view's age. -/
def ProgressTable.new_from_view (scoreFn : Int → Nat → ScoreArgs → Int)
    (entries : List TableEntry) (data : ProgressTableView) : ProgressTable :=
  let n := entries.length
  let pev : List ProgressEntry := entries.map (fun x =>
    match imapFind data.entries x with
    | some v => v
    | none => ⟨scoreFn data.age n data.score_args, false⟩)
  { entries := pev
    capacity := n
    cnt_failed := (pev.filter (fun e => !e.pass)).length
    tree_passed := tree_from_entries pev true
    tree_failed := tree_from_entries pev false
    age := data.age
    score_args := data.score_args }

/-! ## `src/sim_ex.rs` — the session state machine

Conventions for this embedding:
* the `thread_rng` draws are a stream `ρ : Nat → ℚ` with a cursor stored in
  the simulation (each `selector()` call consumes one stream element);
* the `depth` argument counted up to `MAXDEPTH` in the source becomes the
  remaining budget `fuel = MAXDEPTH - depth`, so `assert!(depth < MAXDEPTH)`
  is the `fuel = 0` check and recursive calls pass `fuel - 1`;
* `assert!`/`assert_eq!`/`unwrap` failures are `Except.error` of `Panic`
  (an aborted process, not a recoverable error value);
* `SimArgs` keeps only `classic`; its two path fields merely direct the
  excluded file-writing layer. -/

inductive Panic
  | assertFailed
  | depthExceeded
  | unwrapFailed
deriving Repr, DecidableEq

structure SimArgs where
  classic : Bool
deriving Repr, DecidableEq

/-- `TMessage<T>`: the driver-visible message. -/
inductive TMessage (T : Type)
  | Assess (t : T)
  | Display (t : T)
  | NotifyAssessment
deriving Repr, DecidableEq

abbrev UiMessage := TMessage Nat

/-- `Assessment` sub-state. -/
structure Assessment where
  began : Bool
  ents : List Nat
deriving Repr, DecidableEq

/-- `LearnSingle` sub-state. -/
structure LearnSingle where
  began : Bool
  head : Option Nat
  stack : List Nat
deriving Repr, DecidableEq

/-- `Learning` sub-state. -/
structure Learning where
  ents : List Nat
  inner : Option LearnSingle
deriving Repr, DecidableEq

inductive Bivariant (T U : Type)
  | V1 (t : T)
  | V2 (u : U)
deriving Repr, DecidableEq

/-- The outer `Main` state. -/
structure Main where
  inner : Option (Bivariant Assessment Learning)
deriving Repr, DecidableEq

def Main.new : Main := ⟨none⟩

def MAXDEPTH : Nat := 30

def ASSESS_SESSIONS : Nat := 10

def LEARN_SESSIONS : Nat := 10

/-- `Assessment::new`: draw a batch from the passed pool with the rng. -/
def Assessment.new (ρ : Nat → ℚ) (pt : ProgressTable) (cur : Nat) :
    Assessment × ProgressTable × Nat :=
  let r := pt.select_random_entries ASSESS_SESSIONS true ρ cur
  (⟨false, r.1⟩, r.2.1, r.2.2)

/-- `Learning::new`: draw a batch from the failed pool with the constant-0
selector (`|| 0_f64` — no rng element is consumed), then reverse it. -/
def Learning.new (pt : ProgressTable) : Learning × ProgressTable :=
  let r := pt.select_random_entries LEARN_SESSIONS false (fun _ => 0) 0
  (⟨r.1.reverse, none⟩, r.2.1)

def LearnSingle.new (head : Nat) : LearnSingle :=
  { began := false, stack := [], head := some head }

/-- `Assessment::next`: first call emits `NotifyAssessment` when the batch is
non-empty, then each call pops (`Vec::pop`, i.e. from the back) one index. -/
def Assessment.next (a : Assessment) (fuel : Nat) :
    Except Panic (Option UiMessage × Assessment) :=
  match fuel with
  | 0 => Except.error Panic.depthExceeded
  | _ + 1 =>
    if a.began then
      match a.ents.getLast? with
      | some x => Except.ok (some (TMessage.Assess x), { a with ents := a.ents.dropLast })
      | none => Except.ok (none, a)
    else
      if a.ents.isEmpty then Except.ok (none, { a with began := true })
      else Except.ok (some TMessage.NotifyAssessment, { a with began := true })

/-- `LearnSingle::next`. -/
def LearnSingle.next (classic : Bool) (ρ : Nat → ℚ) (ls : LearnSingle)
    (pt : ProgressTable) (cur : Nat) (pass : Bool) (fuel : Nat) :
    Except Panic (Option UiMessage × LearnSingle × ProgressTable × Nat) :=
  match fuel with
  | 0 => Except.error Panic.depthExceeded
  | _ + 1 =>
    match ls.head with
    | some vhead =>
      if !pass || !ls.began then
        let stack1 := if !classic then ls.stack ++ [vhead] else ls.stack
        let r := pt.select_random_entries 1 true ρ cur
        Except.ok (some (TMessage.Display vhead),
          { began := true, head := none, stack := stack1 ++ r.1 }, r.2.1, r.2.2)
      else
        match ls.stack.getLast? with
        | some tail =>
          Except.ok (some (TMessage.Assess tail),
            { ls with head := some tail, stack := ls.stack.dropLast }, pt, cur)
        | none => Except.ok (none, ls, pt, cur)
    | none =>
      match ls.stack.getLast? with
      | some tail =>
        Except.ok (some (TMessage.Assess tail),
          { ls with head := some tail, stack := ls.stack.dropLast }, pt, cur)
      | none => Except.ok (none, ls, pt, cur)

/-- `Learning::next`. -/
def Learning.next (classic : Bool) (ρ : Nat → ℚ) :
    Learning → ProgressTable → Nat → Bool → Nat →
    Except Panic (Option UiMessage × Learning × ProgressTable × Nat)
  | _, _, _, _, 0 => Except.error Panic.depthExceeded
  | l, pt, cur, pass, fuel + 1 =>
    match l.inner with
    | none =>
      match l.ents.getLast? with
      | none => Except.ok (none, l, pt, cur)
      | some tail =>
        Learning.next classic ρ
          { ents := l.ents.dropLast, inner := some (LearnSingle.new tail) } pt cur pass fuel
    | some ls => do
      let r ← LearnSingle.next classic ρ ls pt cur pass fuel
      match r.1 with
      | some b => Except.ok (some b, { l with inner := some r.2.1 }, r.2.2.1, r.2.2.2)
      | none =>
        Learning.next classic ρ { l with inner := none } r.2.2.1 r.2.2.2 pass fuel

/-- `Main::next` (the trampoline): run the active child, switching between
`Assessment` and `Learning` whenever a child completes. -/
def Main.next (classic : Bool) (ρ : Nat → ℚ) :
    Main → ProgressTable → Nat → Bool → Nat →
    Except Panic (Option UiMessage × Main × ProgressTable × Nat)
  | _, _, _, _, 0 => Except.error Panic.depthExceeded
  | m, pt, cur, pass, fuel + 1 =>
    match m.inner with
    | none =>
      let r := Assessment.new ρ pt cur
      Main.next classic ρ ⟨some (Bivariant.V1 r.1)⟩ r.2.1 r.2.2 pass fuel
    | some (Bivariant.V1 a) => do
      let r ← Assessment.next a fuel
      match r.1 with
      | some b => Except.ok (some b, ⟨some (Bivariant.V1 r.2)⟩, pt, cur)
      | none =>
        let l := Learning.new pt
        Main.next classic ρ ⟨some (Bivariant.V2 l.1)⟩ l.2 cur pass fuel
    | some (Bivariant.V2 a) => do
      let r ← Learning.next classic ρ a pt cur pass fuel
      match r.1 with
      | some b => Except.ok (some b, ⟨some (Bivariant.V2 r.2.1)⟩, r.2.2.1, r.2.2.2)
      | none =>
        let r2 := Assessment.new ρ r.2.2.1 r.2.2.2
        Main.next classic ρ ⟨some (Bivariant.V1 r2.1)⟩ r2.2.1 r2.2.2 pass fuel

/-- `Simulation` (src/sim_ex.rs lines 53–58), with the rng cursor made
explicit. -/
structure Simulation where
  pt : ProgressTable
  args : SimArgs
  last_msg : Option UiMessage
  state : Main
  cur : Nat
deriving Repr, DecidableEq

def Simulation.new (pt : ProgressTable) (args : SimArgs) : Simulation :=
  { pt := pt, args := args, last_msg := none, state := Main.new, cur := 0 }

/-- `Simulation::ptset`: record the outcome (the file write that follows in
the source belongs to the excluded I/O layer). -/
def Simulation.ptset (scoreFn : Int → Nat → ScoreArgs → Int)
    (failBlend : Int → Int → Int) (sim : Simulation) (idx : Nat) (val : Bool) :
    Simulation :=
  { sim with pt := sim.pt.set scoreFn failBlend idx val }

/-- Whether the previous message was an `Assess` (the `matches!` test of the
`assert_eq!` guard in `Simulation::next`). -/
def isAssessMsg : Option UiMessage → Bool
  | some (TMessage.Assess _) => true
  | _ => false

/-- The tail of `Simulation::next` after the answer has been recorded:
advance the state machine (initial call depth 1 = budget `MAXDEPTH - 1`),
store `last_msg`, and `unwrap` the message. -/
def Simulation.nextStep (ρ : Nat → ℚ) (sim1 : Simulation) (pass : Bool) :
    Except Panic (UiMessage × Simulation) := do
  let r ← Main.next sim1.args.classic ρ sim1.state sim1.pt sim1.cur pass (MAXDEPTH - 1)
  match r.1 with
  | some msg =>
    Except.ok (msg,
      { sim1 with state := r.2.1, pt := r.2.2.1, cur := r.2.2.2, last_msg := some msg })
  | none => Except.error Panic.unwrapFailed

/-- `Simulation::next(te, post)` (src/sim_ex.rs lines 82–108): the protocol
guard `assert_eq!(matches!(last_msg, Assess(_)), post.is_some())` panics on
mismatch; then a pending answer is assessed and recorded, and the state
machine is advanced. -/
def Simulation.next (scoreFn : Int → Nat → ScoreArgs → Int)
    (failBlend : Int → Int → Int) (ρ : Nat → ℚ) (sim : Simulation)
    (te : List TableEntry) (post : Option String) :
    Except Panic (UiMessage × Simulation) :=
  if isAssessMsg sim.last_msg ≠ post.isSome then
    Except.error Panic.assertFailed
  else
    match sim.last_msg, post with
    | some (TMessage.Assess ent), some ans =>
      let b := (te.getD ent ⟨"", ""⟩).assess ans
      Simulation.nextStep ρ (sim.ptset scoreFn failBlend ent b) b
    | _, _ => Simulation.nextStep ρ sim false

/-- `Simulation::flush_state`. -/
def Simulation.flush_state (sim : Simulation) : Simulation :=
  { sim with state := Main.new }

/-! ## Generic list helpers for the table-level proofs -/

theorem getDSet_self {α : Type _} (l : List α) (i : Nat) (v d : α) (h : i < l.length) :
    (l.set i v).getD i d = v := by
  simp [List.getD_eq_getElem?_getD, List.getElem?_set_self', h]

theorem getDSet_ne {α : Type _} (l : List α) (i j : Nat) (v d : α) (h : i ≠ j) :
    (l.set i v).getD j d = l.getD j d := by
  simp [List.getD_eq_getElem?_getD, List.getElem?_set_ne h]

theorem find?_unique {α : Type _} (p : α → Bool) :
    ∀ (l : List α) (a : α), a ∈ l → p a = true →
    (∀ b ∈ l, p b = true → b = a) → l.find? p = some a
  | [], a, hmem, _, _ => absurd hmem (List.not_mem_nil a)
  | x :: xs, a, hmem, hpa, huniq => by
    by_cases hx : p x = true
    · rw [List.find?_cons_of_pos _ hx]
      rw [huniq x (by simp) hx]
    · rw [List.find?_cons_of_neg _ hx]
      have hax : a ≠ x := fun h => hx (h ▸ hpa)
      have hmem' : a ∈ xs := by
        rcases List.mem_cons.mp hmem with h | h
        · exact absurd h hax
        · exact h
      exact find?_unique p xs a hmem' hpa (fun b hb hpb => huniq b (by simp [hb]) hpb)

/-! ## Shared concrete instances for witnesses and counterexamples -/

/-- Concrete `ScoreArgs` (values irrelevant to every property below). -/
def sa0 : ScoreArgs := ⟨0, UNIT, UNIT⟩

/-- Concrete stand-in for the `f64` score curve: the constant unit score.
(The fresh-table scenarios below posit `distrust = UNIT` for unseen entries,
which is what this function yields at any age.) -/
def sfU : Int → Nat → ScoreArgs → Int := fun _ _ _ => UNIT

/-- Concrete stand-in for the `f64` fail-branch blend (never reached in the
scenarios below, which only record passes). -/
def fb0 : Int → Int → Int := fun _ _ => 0

/-- Concrete rng stream (never consumed in the scenarios below). -/
def rho0 : Nat → ℚ := fun _ => 0

def catAB : List TableEntry := [⟨"a", "1"⟩, ⟨"b", "2"⟩]

/-! ## C4 — `rank` finds the unique interval containing the target -/

/-- **C4**: for every well-formed tree and every integer `target` with
`0 ≤ target < sum()`, `rank target` returns an index with positive weight
whose half-open cumulative-weight interval `[prefSum i, prefSum i + value_at i)`
contains `target`, and it is the only index whose interval does — the
intervals partition `[0, sum())` with no gaps and no overlaps, and an index
of weight 0 is never returned. -/
theorem C4_rank_partition (t : OSTree) (k : Nat) (h : t.WFk k) (target : Int)
    (h0 : 0 ≤ target) (hlt : target < t.sum) :
    0 < t.value_at (t.rank target) ∧
    t.prefSum (t.rank target) ≤ target ∧
    target < t.prefSum (t.rank target) + t.value_at (t.rank target) ∧
    (∀ i, t.prefSum i ≤ target → target < t.prefSum i + t.value_at i →
      i = t.rank target) := by
  obtain ⟨h1, h2, h3⟩ := rank_correct t k h target h0 hlt
  exact ⟨by omega, h2, h3, fun i hi1 hi2 => rank_unique t k h target h0 hlt i hi1 hi2⟩

def c4tree : OSTree := ((OSTree.new 2).assign 0 1).assign 1 5

theorem C4_witness :
    c4tree.WFk 1 ∧ (0 : Int) ≤ 3 ∧ (3 : Int) < c4tree.sum ∧
    (0 < c4tree.value_at (c4tree.rank 3) ∧
     c4tree.prefSum (c4tree.rank 3) ≤ 3 ∧
     (3 : Int) < c4tree.prefSum (c4tree.rank 3) + c4tree.value_at (c4tree.rank 3) ∧
     (∀ i, c4tree.prefSum i ≤ 3 → (3 : Int) < c4tree.prefSum i + c4tree.value_at i →
       i = c4tree.rank 3)) :=
  ⟨by decide, by decide, by decide,
    C4_rank_partition c4tree 1 (by decide) 3 (by decide) (by decide)⟩

/-! ## C2 — selection is duplicate-free, hits only positive weights, and
leaves the pool exactly as it found it -/

theorem sre_true_eq (pt : ProgressTable) (n cur : Nat) (selector : Nat → ℚ) :
    pt.select_random_entries n true selector cur =
      ((selectFromTree pt.tree_passed n selector cur).1,
       { pt with tree_passed := (selectFromTree pt.tree_passed n selector cur).2.1 },
       (selectFromTree pt.tree_passed n selector cur).2.2) := rfl

theorem sre_false_eq (pt : ProgressTable) (n cur : Nat) (selector : Nat → ℚ) :
    pt.select_random_entries n false selector cur =
      ((selectFromTree pt.tree_failed n selector cur).1,
       { pt with tree_failed := (selectFromTree pt.tree_failed n selector cur).2.1 },
       (selectFromTree pt.tree_failed n selector cur).2.2) := rfl

/-- **C2**: for every call `select_random_entries n pass selector` with a
selector drawing values in `[0,1)`, the returned list has length at most `n`,
its indices are pairwise distinct, none of them had weight 0 in the selected
pool at call entry, and on return every leaf weight (hence `sum()`) of the
selected pool tree equals its value at call entry. -/
theorem C2_select_frame (pt : ProgressTable) (k n cur : Nat) (pass : Bool)
    (selector : Nat → ℚ)
    (h : (if pass then pt.tree_passed else pt.tree_failed).WFk k)
    (hsel : ∀ j, 0 ≤ selector j ∧ selector j < 1) :
    (pt.select_random_entries n pass selector cur).1.length ≤ n ∧
    (pt.select_random_entries n pass selector cur).1.Nodup ∧
    (∀ i ∈ (pt.select_random_entries n pass selector cur).1,
      0 < (if pass then pt.tree_passed else pt.tree_failed).value_at i) ∧
    (∀ i, (if pass then ((pt.select_random_entries n pass selector cur).2.1).tree_passed
            else ((pt.select_random_entries n pass selector cur).2.1).tree_failed).value_at i
          = (if pass then pt.tree_passed else pt.tree_failed).value_at i) ∧
    (if pass then ((pt.select_random_entries n pass selector cur).2.1).tree_passed
      else ((pt.select_random_entries n pass selector cur).2.1).tree_failed).sum
        = (if pass then pt.tree_passed else pt.tree_failed).sum := by
  cases pass
  · simp only [Bool.false_eq_true, if_false] at h ⊢
    rw [sre_false_eq]
    exact selectFromTree_spec pt.tree_failed k h n selector cur hsel |>.imp id
      (fun h2 => h2.imp id (fun h3 => h3.imp id (fun h4 => ⟨h4.1, h4.2.1⟩)))
  · simp only [if_true] at h ⊢
    rw [sre_true_eq]
    exact selectFromTree_spec pt.tree_passed k h n selector cur hsel |>.imp id
      (fun h2 => h2.imp id (fun h3 => h3.imp id (fun h4 => ⟨h4.1, h4.2.1⟩)))

def c2pt : ProgressTable := ProgressTable.new sfU catAB sa0

theorem C2_witness :
    (if false then c2pt.tree_passed else c2pt.tree_failed).WFk 1 ∧
    (∀ j : Nat, 0 ≤ rho0 j ∧ rho0 j < 1) ∧
    ((c2pt.select_random_entries 1 false rho0 0).1.length ≤ 1 ∧
     (c2pt.select_random_entries 1 false rho0 0).1.Nodup ∧
     (∀ i ∈ (c2pt.select_random_entries 1 false rho0 0).1,
       0 < (if false then c2pt.tree_passed else c2pt.tree_failed).value_at i) ∧
     (∀ i, (if false then ((c2pt.select_random_entries 1 false rho0 0).2.1).tree_passed
             else ((c2pt.select_random_entries 1 false rho0 0).2.1).tree_failed).value_at i
           = (if false then c2pt.tree_passed else c2pt.tree_failed).value_at i) ∧
     (if false then ((c2pt.select_random_entries 1 false rho0 0).2.1).tree_passed
       else ((c2pt.select_random_entries 1 false rho0 0).2.1).tree_failed).sum
         = (if false then c2pt.tree_passed else c2pt.tree_failed).sum) :=
  ⟨by decide, fun j => ⟨le_refl 0, zero_lt_one⟩,
    C2_select_frame c2pt 1 1 0 false rho0 (by decide)
      (fun j => ⟨le_refl 0, zero_lt_one⟩)⟩

/-! ## C3 — what the always-0 selector actually picks -/

/-- **C3 (amended)**: when `Learning` draws its batch with the selector that
always returns 0, each successive draw deterministically picks the
*lowest-indexed* item with positive weight currently in the failed pool
(a 0 draw against `rank` yields the first positive-weight leaf, not a
maximal-weight one): the batch is the ascending list of the first
`LEARN_SESSIONS` positive-weight failed indices, stored reversed. -/
theorem C3_learning_zero_selector (pt : ProgressTable) (k : Nat)
    (h : pt.tree_failed.WFk k) :
    (Learning.new pt).1.ents = (pt.tree_failed.posIdxs.take LEARN_SESSIONS).reverse ∧
    pt.tree_failed.posIdxs.Pairwise (· < ·) ∧
    (∀ i, i ∈ pt.tree_failed.posIdxs ↔
      (i < pt.tree_failed.arr.length / 2 ∧ 0 < pt.tree_failed.value_at i)) := by
  refine ⟨?_, posIdxs_pairwise _, mem_posIdxs _⟩
  have h1 : (Learning.new pt).1.ents =
      (pt.select_random_entries LEARN_SESSIONS false (fun _ => 0) 0).1.reverse := rfl
  have h2 : (pt.select_random_entries LEARN_SESSIONS false (fun _ => 0) 0).1 =
      (selectGo (fun _ => (0 : ℚ)) LEARN_SESSIONS pt.tree_failed 0 []).2.2.map
        TreeBorrow.idx := rfl
  rw [h1, h2, selectGo_zero_idxs k LEARN_SESSIONS pt.tree_failed h 0 []]
  simp

/-- A reachable table whose failed pool holds weight 1 at index 0 and
weight 5 at index 1 (as restored from a persisted snapshot). -/
def c3view : ProgressTableView :=
  ⟨[(⟨1, false⟩, ⟨"a", "1"⟩), (⟨5, false⟩, ⟨"b", "2"⟩)], 0, sa0⟩

def c3pt : ProgressTable := ProgressTable.new_from_view sfU catAB c3view

/-- **C3 (counterexample)**: with the always-0 selector the first draw of the
learning batch is index 0, whose weight (1) is *not* maximal in the failed
pool — index 1 holds weight 5.  `rank 0` returns the lowest-indexed
positive-weight leaf, not an index of maximal weight, refuting the claim
that learning always targets the currently most-distrusted item. -/
theorem C3_counterexample :
    (c3pt.select_random_entries LEARN_SESSIONS false (fun _ => 0) 0).1 = [0, 1] ∧
    c3pt.tree_failed.value_at 0 = 1 ∧ c3pt.tree_failed.value_at 1 = 5 ∧
    c3pt.tree_failed.value_at 0 < c3pt.tree_failed.value_at 1 := by
  have h2 : (c3pt.select_random_entries LEARN_SESSIONS false (fun _ => 0) 0).1 =
      (selectGo (fun _ => (0 : ℚ)) LEARN_SESSIONS c3pt.tree_failed 0 []).2.2.map
        TreeBorrow.idx := rfl
  refine ⟨?_, by decide, by decide, by decide⟩
  rw [h2, selectGo_zero_idxs 1 LEARN_SESSIONS c3pt.tree_failed (by decide) 0 []]
  simp only [List.map_nil, List.nil_append]
  decide

def c3wpt : ProgressTable := ProgressTable.new sfU catAB sa0

theorem C3_witness :
    c3wpt.tree_failed.WFk 1 ∧
    ((Learning.new c3wpt).1.ents =
      (c3wpt.tree_failed.posIdxs.take LEARN_SESSIONS).reverse ∧
     c3wpt.tree_failed.posIdxs.Pairwise (· < ·) ∧
     (∀ i, i ∈ c3wpt.tree_failed.posIdxs ↔
       (i < c3wpt.tree_failed.arr.length / 2 ∧ 0 < c3wpt.tree_failed.value_at i))) :=
  ⟨by decide, C3_learning_zero_selector c3wpt 1 (by decide)⟩

/-! ## C1 — the dual-tree invariant, as specified vs as implemented -/

/-- The invariant claimed in the specification: each pool tree's leaf holds
the entry's (current) distrust when the entry's flag matches, else 0. -/
def ProgressTable.DualTreeInv (pt : ProgressTable) : Prop :=
  ∀ i, i < pt.entries.length →
    pt.tree_passed.value_at i =
      (if (pt.entries.getD i default).pass then (pt.entries.getD i default).distrust else 0) ∧
    pt.tree_failed.value_at i =
      (if (pt.entries.getD i default).pass then 0 else (pt.entries.getD i default).distrust)

instance (pt : ProgressTable) : Decidable pt.DualTreeInv := by
  unfold ProgressTable.DualTreeInv
  infer_instance

/-- The weaker invariant the implementation actually maintains: each pool
tree is supported only on entries whose flag matches. -/
def ProgressTable.SupportInv (pt : ProgressTable) : Prop :=
  ∀ i, i < pt.entries.length →
    ((pt.entries.getD i default).pass = false → pt.tree_passed.value_at i = 0) ∧
    ((pt.entries.getD i default).pass = true → pt.tree_failed.value_at i = 0)

instance (pt : ProgressTable) : Decidable pt.SupportInv := by
  unfold ProgressTable.SupportInv
  infer_instance

def c1pt0 : ProgressTable := ProgressTable.new sfU catAB sa0

def c1pt1 : ProgressTable := c1pt0.set sfU fb0 0 true

/-- **C1 (counterexample)**: on a fresh 2-item table the claimed dual-tree
invariant holds, but after `set 0 true` it fails: the entry's distrust is
updated to `(10000+1)/2 = 5000` while the passed-pool tree receives the *old*
distrust 10000 — `set` re-synchronizes the trees with the pre-update value,
not the new one. -/
theorem C1_counterexample :
    c1pt0.DualTreeInv ∧ ¬ c1pt1.DualTreeInv ∧
    (c1pt1.entries.getD 0 default).distrust = 5000 ∧
    (c1pt1.entries.getD 0 default).pass = true ∧
    c1pt1.tree_passed.value_at 0 = 10000 := by
  decide

/-- **C1 (amended)**: `set idx pass` assigns the *old* (pre-update) distrust
into the tree matching the new `pass` flag and 0 into the other; under this
discipline the support invariant (each tree is zero where the entry's flag
does not match) is preserved by `set`, for any score curve and fail blend. -/
theorem C1_set_old_distrust (scoreFn : Int → Nat → ScoreArgs → Int)
    (failBlend : Int → Int → Int) (pt : ProgressTable) (k : Nat)
    (hp : pt.tree_passed.WFk k) (hf : pt.tree_failed.WFk k)
    (hcap : pt.entries.length ≤ 2 ^ k) (idx : Nat) (hidx : idx < pt.entries.length)
    (pass : Bool) (hinv : pt.SupportInv) :
    (pt.set scoreFn failBlend idx pass).SupportInv ∧
    (if pass then (pt.set scoreFn failBlend idx pass).tree_passed
     else (pt.set scoreFn failBlend idx pass).tree_failed).value_at idx
      = (pt.entries.getD idx default).distrust ∧
    (if pass then (pt.set scoreFn failBlend idx pass).tree_failed
     else (pt.set scoreFn failBlend idx pass).tree_passed).value_at idx = 0 ∧
    ((pt.set scoreFn failBlend idx pass).entries.getD idx default).pass = pass := by
  have hidxk : idx < 2 ^ k := lt_of_lt_of_le hidx hcap
  cases pass
  case false =>
    have hTP : (pt.set scoreFn failBlend idx false).tree_passed
        = pt.tree_passed.assign idx 0 := rfl
    have hTF : (pt.set scoreFn failBlend idx false).tree_failed
        = pt.tree_failed.assign idx (pt.entries.getD idx default).distrust := rfl
    have hE : (pt.set scoreFn failBlend idx false).entries
        = pt.entries.set idx
            ⟨failBlend (pt.unit_score scoreFn) (pt.entries.getD idx default).distrust,
             false⟩ := rfl
    refine ⟨?_, ?_, ?_, ?_⟩
    · intro i hi
      rw [hE, List.length_set] at hi
      by_cases hieq : i = idx
      · subst hieq
        constructor
        · intro _
          rw [hTP, assign_value_at_self pt.tree_passed k hp i 0 hidxk]
        · intro hcontra
          rw [hE, getDSet_self _ _ _ _ hidx] at hcontra
          exact absurd hcontra (by simp)
      · constructor
        · intro hpassf
          rw [hE, getDSet_ne _ _ _ _ _ (fun hh => hieq hh.symm)] at hpassf
          rw [hTP, assign_value_at_ne pt.tree_passed k hp idx i 0 hidxk hieq]
          exact (hinv i hi).1 hpassf
        · intro hpasst
          rw [hE, getDSet_ne _ _ _ _ _ (fun hh => hieq hh.symm)] at hpasst
          rw [hTF, assign_value_at_ne pt.tree_failed k hf idx i _ hidxk hieq]
          exact (hinv i hi).2 hpasst
    · rw [if_neg (by simp), hTF,
        assign_value_at_self pt.tree_failed k hf idx _ hidxk]
    · rw [if_neg (by simp), hTP,
        assign_value_at_self pt.tree_passed k hp idx 0 hidxk]
    · rw [hE, getDSet_self _ _ _ _ hidx]
  case true =>
    have hTP : (pt.set scoreFn failBlend idx true).tree_passed
        = pt.tree_passed.assign idx (pt.entries.getD idx default).distrust := rfl
    have hTF : (pt.set scoreFn failBlend idx true).tree_failed
        = pt.tree_failed.assign idx 0 := rfl
    have hE : (pt.set scoreFn failBlend idx true).entries
        = pt.entries.set idx
            ⟨((pt.entries.getD idx default).distrust + 1).tdiv 2, true⟩ := rfl
    refine ⟨?_, ?_, ?_, ?_⟩
    · intro i hi
      rw [hE, List.length_set] at hi
      by_cases hieq : i = idx
      · subst hieq
        constructor
        · intro hcontra
          rw [hE, getDSet_self _ _ _ _ hidx] at hcontra
          exact absurd hcontra (by simp)
        · intro _
          rw [hTF, assign_value_at_self pt.tree_failed k hf i 0 hidxk]
      · constructor
        · intro hpassf
          rw [hE, getDSet_ne _ _ _ _ _ (fun hh => hieq hh.symm)] at hpassf
          rw [hTP, assign_value_at_ne pt.tree_passed k hp idx i _ hidxk hieq]
          exact (hinv i hi).1 hpassf
        · intro hpasst
          rw [hE, getDSet_ne _ _ _ _ _ (fun hh => hieq hh.symm)] at hpasst
          rw [hTF, assign_value_at_ne pt.tree_failed k hf idx i 0 hidxk hieq]
          exact (hinv i hi).2 hpasst
    · rw [if_pos rfl, hTP,
        assign_value_at_self pt.tree_passed k hp idx _ hidxk]
    · rw [if_pos rfl, hTF,
        assign_value_at_self pt.tree_failed k hf idx 0 hidxk]
    · rw [hE, getDSet_self _ _ _ _ hidx]

theorem C1_witness :
    c1pt0.tree_passed.WFk 1 ∧ c1pt0.tree_failed.WFk 1 ∧
    c1pt0.entries.length ≤ 2 ^ 1 ∧ 0 < c1pt0.entries.length ∧ c1pt0.SupportInv ∧
    ((c1pt0.set sfU fb0 0 true).SupportInv ∧
     (if true then (c1pt0.set sfU fb0 0 true).tree_passed
      else (c1pt0.set sfU fb0 0 true).tree_failed).value_at 0
       = (c1pt0.entries.getD 0 default).distrust ∧
     (if true then (c1pt0.set sfU fb0 0 true).tree_failed
      else (c1pt0.set sfU fb0 0 true).tree_passed).value_at 0 = 0 ∧
     ((c1pt0.set sfU fb0 0 true).entries.getD 0 default).pass = true) :=
  ⟨by decide, by decide, by decide, by decide, by decide,
    C1_set_old_distrust sfU fb0 c1pt0 1 (by decide) (by decide) (by decide) 0
      (by decide) true (by decide)⟩

/-! ## C7 — the fresh 2-item scenario -/

/-- The failed-pool tree after `set 0 true` on the fresh 2-item table. -/
def c7treeF : OSTree := c1pt0.tree_failed.assign 0 0

/-- **C7**: on a fresh 2-item table (both entries `distrust = UNIT = 10000`,
`pass = false`), after `set 0 true` (for any fail blend, which is not
consulted on a pass): entry 0's distrust is `(UNIT+1)/2 = 5000` (truncating
division), entry 0's weight in the failed-pool tree is 0 while its
passed-pool weight is positive, and any `select_random_entries 1 false`
with a selector value in `[0,1)` can only return index 1. -/
theorem C7_two_item_scenario (fb : Int → Int → Int) (u : Nat → ℚ)
    (h0 : 0 ≤ u 0) (h1 : u 0 < 1) :
    ((c1pt0.set sfU fb 0 true).entries.getD 0 default).distrust = (UNIT + 1).tdiv 2 ∧
    (UNIT + 1).tdiv 2 = 5000 ∧
    (c1pt0.set sfU fb 0 true).tree_failed.value_at 0 = 0 ∧
    0 < (c1pt0.set sfU fb 0 true).tree_passed.value_at 0 ∧
    ((c1pt0.set sfU fb 0 true).select_random_entries 1 false u 0).1 = [1] := by
  have hT : (c1pt0.set sfU fb 0 true).tree_failed = c7treeF := rfl
  have hE : (c1pt0.set sfU fb 0 true).entries = [⟨5000, true⟩, ⟨10000, false⟩] := rfl
  have hP : (c1pt0.set sfU fb 0 true).tree_passed
      = c1pt0.tree_passed.assign 0 10000 := rfl
  refine ⟨by rw [hE]; decide, by decide, by rw [hT]; decide, by rw [hP]; decide, ?_⟩
  have hwf : c7treeF.WFk 1 := by decide
  have hsumpos : (0 : Int) < c7treeF.sum := by decide
  set sel : Int := ⌊(c7treeF.sum : ℚ) * u 0⌋ with hseldef
  have hsel0 : 0 ≤ sel := by
    rw [hseldef]
    apply Int.floor_nonneg.mpr
    apply mul_nonneg _ h0
    exact_mod_cast hsumpos.le
  have hsellt : sel < c7treeF.sum := by
    rw [hseldef]
    apply Int.floor_lt.mpr
    apply mul_lt_of_lt_one_right _ h1
    exact_mod_cast hsumpos
  have hrank1 : c7treeF.rank sel = 1 := by
    have h2 : c7treeF.rank sel < 2 := by
      have := (rank_correct c7treeF 1 hwf sel hsel0 hsellt).1
      simpa using this
    have hpos := rank_weight_pos c7treeF 1 hwf sel hsel0 hsellt
    have h01 : c7treeF.rank sel = 0 ∨ c7treeF.rank sel = 1 := by omega
    rcases h01 with hz | ho
    · rw [hz] at hpos
      have h0v : c7treeF.value_at 0 = 0 := by decide
      omega
    · exact ho
  have hstep : (c1pt0.set sfU fb 0 true).select_random_entries 1 false u 0
      = ((selectFromTree c7treeF 1 u 0).1,
         { (c1pt0.set sfU fb 0 true) with
             tree_failed := (selectFromTree c7treeF 1 u 0).2.1 },
         (selectFromTree c7treeF 1 u 0).2.2) := by
    rw [sre_false_eq, hT]
  rw [hstep]
  have hgo : selectGo u 1 c7treeF 0 []
      = selectGo u 0 (c7treeF.assign (c7treeF.rank sel) 0) 1
          ([] ++ [⟨c7treeF.rank sel, c7treeF.value_at (c7treeF.rank sel)⟩]) := by
    unfold selectGo
    rw [if_neg (by decide)]
    rfl
  have hfin : (selectFromTree c7treeF 1 u 0).1
      = [c7treeF.rank sel] := by
    have : (selectFromTree c7treeF 1 u 0).1
        = (selectGo u 1 c7treeF 0 []).2.2.map TreeBorrow.idx := rfl
    rw [this, hgo]
    rfl
  rw [hfin, hrank1]

theorem C7_witness :
    (0 : ℚ) ≤ rho0 0 ∧ rho0 0 < 1 ∧
    (((c1pt0.set sfU fb0 0 true).entries.getD 0 default).distrust = (UNIT + 1).tdiv 2 ∧
     (UNIT + 1).tdiv 2 = 5000 ∧
     (c1pt0.set sfU fb0 0 true).tree_failed.value_at 0 = 0 ∧
     0 < (c1pt0.set sfU fb0 0 true).tree_passed.value_at 0 ∧
     ((c1pt0.set sfU fb0 0 true).select_random_entries 1 false rho0 0).1 = [1]) :=
  ⟨le_refl 0, zero_lt_one, C7_two_item_scenario fb0 rho0 (le_refl 0) zero_lt_one⟩

/-! ## C9 — `supply` and the capacity check -/

theorem supplyFold_cnt (n : Nat) :
    ∀ (l : List (Nat × ProgressEntry)) (acc : OSTree × OSTree × Nat),
    (l.foldl
      (fun (acc : OSTree × OSTree × Nat) pr =>
        if pr.2.pass then (acc.1.assign (pr.1 + n) pr.2.distrust, acc.2.1, acc.2.2)
        else (acc.1, acc.2.1.assign (pr.1 + n) pr.2.distrust, acc.2.2 + 1))
      acc).2.2 = acc.2.2 + l.countP (fun pr => !pr.2.pass)
  | [], acc => by simp
  | pr :: l, acc => by
    rw [List.foldl_cons, List.countP_cons]
    by_cases hpass : pr.2.pass
    · rw [supplyFold_cnt n l _]
      simp [hpass]
    · rw [supplyFold_cnt n l _]
      have hb : (pr.2.pass == false) = true := by
        simp [hpass]
      simp [hpass]
      omega

/-- **C9**: `supply chunk` fails with the (recoverable) `OutOfRangeError`
exactly when appending would exceed the declared capacity — the check runs
before any mutation of the table — and otherwise succeeds, appending the
chunk to the entries, keeping capacity/age/score state, and counting the
chunk's failed entries. -/
theorem C9_supply_capacity (pt : ProgressTable) (chunk : List ProgressEntry) :
    (pt.entries.length + chunk.length > pt.capacity →
      pt.supply chunk = Except.error OutOfRangeError.mk) ∧
    (pt.entries.length + chunk.length ≤ pt.capacity →
      ∃ pt', pt.supply chunk = Except.ok pt' ∧
        pt'.entries = pt.entries ++ chunk ∧
        pt'.capacity = pt.capacity ∧
        pt'.age = pt.age ∧
        pt'.score_args = pt.score_args ∧
        pt'.cnt_failed = pt.cnt_failed + chunk.countP (fun e => !e.pass)) := by
  constructor
  · intro hover
    unfold ProgressTable.supply
    rw [if_pos (by omega)]
  · intro hok
    unfold ProgressTable.supply
    rw [if_neg (by omega)]
    refine ⟨_, rfl, rfl, rfl, rfl, rfl, ?_⟩
    show (chunk.enum.foldl _ (pt.tree_passed, pt.tree_failed, pt.cnt_failed)).2.2 = _
    rw [supplyFold_cnt pt.entries.length chunk.enum
      (pt.tree_passed, pt.tree_failed, pt.cnt_failed)]
    congr 1
    have henum : chunk.enum.map Prod.snd = chunk := List.enum_map_snd chunk
    calc chunk.enum.countP (fun pr => !pr.2.pass)
        = (chunk.enum.map Prod.snd).countP (fun e => !e.pass) := by
          rw [List.countP_map]
          rfl
      _ = chunk.countP (fun e => !e.pass) := by rw [henum]

def c9chunk : List ProgressEntry := [⟨7, false⟩]

def c9nil : List ProgressEntry := []

theorem C9_witness :
    (c1pt0.entries.length + c9chunk.length > c1pt0.capacity ∧
      c1pt0.supply c9chunk = Except.error OutOfRangeError.mk) ∧
    (c1pt0.entries.length + c9nil.length ≤ c1pt0.capacity ∧
      ∃ pt', c1pt0.supply c9nil = Except.ok pt' ∧
        pt'.entries = c1pt0.entries ++ c9nil ∧
        pt'.capacity = c1pt0.capacity ∧
        pt'.age = c1pt0.age ∧
        pt'.score_args = c1pt0.score_args ∧
        pt'.cnt_failed = c1pt0.cnt_failed + c9nil.countP (fun e => !e.pass)) :=
  ⟨⟨by decide, (C9_supply_capacity c1pt0 c9chunk).1 (by decide)⟩,
   ⟨by decide, (C9_supply_capacity c1pt0 c9nil).2 (by decide)⟩⟩

/-! ## C10 — answers are judged by exact string equality with `rhs` -/

/-- **C10**: an answer is judged correct iff it is *exactly* the entry's
`rhs` string — byte-for-byte equality, hence case- and whitespace-sensitive,
with no normalization — and the judgement never depends on `lhs`. -/
theorem C10_assess_exact (te : TableEntry) (s : String) :
    (te.assess s = true ↔ s = te.rhs) ∧
    (∀ l1 l2 : String,
      (TableEntry.mk l1 te.rhs).assess s = (TableEntry.mk l2 te.rhs).assess s) := by
  constructor
  · unfold TableEntry.assess
    exact beq_iff_eq
  · intro l1 l2
    rfl

/-- Concrete instances of C10's sensitivity: case, whitespace, and
lhs-irrelevance on the sample catalog. -/
theorem C10_assess_samples :
    (TableEntry.mk "a" "Ja").assess "Ja" = true ∧
    (TableEntry.mk "a" "Ja").assess "ja" = false ∧
    (TableEntry.mk "a" "Ja").assess "Ja " = false ∧
    (TableEntry.mk "a" "Ja").assess "a" = false := by
  decide

/-! ## C8 — persistence round-trips -/

theorem imapFind_zip (pt : ProgressTable) (te : List TableEntry)
    (hnd : te.Nodup) (hlen : pt.entries.length = te.length)
    (i : Nat) (hi : i < te.length) :
    imapFind (pt.entries.zip te) (te.get ⟨i, hi⟩) =
      some (pt.entries.get ⟨i, hlen ▸ hi⟩) := by
  have hzlen : (pt.entries.zip te).length = te.length := by
    rw [List.length_zip, hlen, Nat.min_self]
  have hzi : i < (pt.entries.zip te).length := by omega
  have hget : (pt.entries.zip te).get ⟨i, hzi⟩ =
      (pt.entries.get ⟨i, hlen ▸ hi⟩, te.get ⟨i, hi⟩) := by
    simp [List.getElem_zip]
  have hmem : (pt.entries.get ⟨i, hlen ▸ hi⟩, te.get ⟨i, hi⟩) ∈
      (pt.entries.zip te).reverse := by
    rw [List.mem_reverse, ← hget]
    exact List.get_mem _ _ _
  have hp : (fun p : ProgressEntry × TableEntry => decide (p.2 = te.get ⟨i, hi⟩))
      (pt.entries.get ⟨i, hlen ▸ hi⟩, te.get ⟨i, hi⟩) = true := by simp
  have huniq : ∀ b ∈ (pt.entries.zip te).reverse,
      (fun p : ProgressEntry × TableEntry => decide (p.2 = te.get ⟨i, hi⟩)) b = true →
      b = (pt.entries.get ⟨i, hlen ▸ hi⟩, te.get ⟨i, hi⟩) := by
    intro b hb hpb
    rw [List.mem_reverse] at hb
    obtain ⟨j, hjb⟩ := List.mem_iff_get.mp hb
    have hjlt : (j : Nat) < te.length := by
      have := j.isLt
      omega
    have hjlt' : (j : Nat) < pt.entries.length := by omega
    have hbj : b = (pt.entries.get ⟨j, hjlt'⟩, te.get ⟨j, hjlt⟩) := by
      rw [← hjb]
      simp [List.getElem_zip]
    simp only [decide_eq_true_eq] at hpb
    rw [hbj] at hpb
    have hteq : te.get ⟨j, hjlt⟩ = te.get ⟨i, hi⟩ := hpb
    have hji : (⟨(j : Nat), hjlt⟩ : Fin te.length) = ⟨i, hi⟩ :=
      (List.Nodup.get_inj_iff hnd).mp hteq
    have hval : (j : Nat) = i := by
      have := congrArg Fin.val hji
      simpa using this
    have hf1 : (⟨(j : Nat), hjlt'⟩ : Fin pt.entries.length) = ⟨i, hlen ▸ hi⟩ :=
      Fin.ext hval
    rw [hbj, hf1, hji]
  unfold imapFind
  rw [find?_unique _ _ _ hmem hp huniq]
  rfl

/-- **C8**: serializing a table against a duplicate-free catalog and
deserializing the view against the same unmodified catalog restores
identical `(distrust, pass)` for every catalog item (matched by content) and
the identical age/decay state, for any score curve. -/
theorem C8_roundtrip (scoreFn : Int → Nat → ScoreArgs → Int) (pt : ProgressTable)
    (te : List TableEntry) (hnd : te.Nodup) (hlen : pt.entries.length = te.length) :
    (ProgressTable.new_from_view scoreFn te (ProgressTableView.new pt te)).entries
      = pt.entries ∧
    (ProgressTable.new_from_view scoreFn te (ProgressTableView.new pt te)).age = pt.age ∧
    (ProgressTable.new_from_view scoreFn te (ProgressTableView.new pt te)).score_args
      = pt.score_args := by
  refine ⟨?_, rfl, rfl⟩
  have hent : (ProgressTable.new_from_view scoreFn te (ProgressTableView.new pt te)).entries
      = te.map (fun x =>
          match imapFind (pt.entries.zip te) x with
          | some v => v
          | none => ⟨scoreFn pt.age te.length pt.score_args, false⟩) := rfl
  rw [hent]
  apply List.ext_get
  · rw [List.length_map, hlen]
  · intro i h1 h2
    rw [List.get_map]
    have hi : i < te.length := by
      rw [List.length_map] at h1
      exact h1
    have := imapFind_zip pt te hnd hlen i hi
    rw [this]

theorem C8_witness :
    catAB.Nodup ∧ c3pt.entries.length = catAB.length ∧
    ((ProgressTable.new_from_view sfU catAB (ProgressTableView.new c3pt catAB)).entries
       = c3pt.entries ∧
     (ProgressTable.new_from_view sfU catAB (ProgressTableView.new c3pt catAB)).age
       = c3pt.age ∧
     (ProgressTable.new_from_view sfU catAB (ProgressTableView.new c3pt catAB)).score_args
       = c3pt.score_args) :=
  ⟨by decide, by decide, C8_roundtrip sfU c3pt catAB (by decide) (by decide)⟩

/-! ## Age preservation through the state machine (for C6) -/

theorem sre_age (pt : ProgressTable) (n : Nat) (pass : Bool) (sel : Nat → ℚ) (cur : Nat) :
    ((pt.select_random_entries n pass sel cur).2.1).age = pt.age := by
  cases pass
  · rw [sre_false_eq]
  · rw [sre_true_eq]

theorem set_age (scoreFn : Int → Nat → ScoreArgs → Int) (failBlend : Int → Int → Int)
    (pt : ProgressTable) (idx : Nat) (pass : Bool) :
    (pt.set scoreFn failBlend idx pass).age = pt.age := rfl

theorem learnsingle_next_age (classic : Bool) (ρ : Nat → ℚ) (ls : LearnSingle)
    (pt : ProgressTable) (cur : Nat) (pass : Bool) (fuel : Nat)
    (r : Option UiMessage × LearnSingle × ProgressTable × Nat)
    (h : LearnSingle.next classic ρ ls pt cur pass fuel = Except.ok r) :
    r.2.2.1.age = pt.age := by
  unfold LearnSingle.next at h
  split at h
  · exact absurd h (by simp)
  · split at h
    · split at h
      · injection h with h'
        subst h'
        exact sre_age pt 1 true ρ cur
      · split at h
        · injection h with h'
          subst h'
          rfl
        · injection h with h'
          subst h'
          rfl
    · split at h
      · injection h with h'
        subst h'
        rfl
      · injection h with h'
        subst h'
        rfl

theorem learning_next_age (classic : Bool) (ρ : Nat → ℚ) :
    ∀ (fuel : Nat) (l : Learning) (pt : ProgressTable) (cur : Nat) (pass : Bool)
    (r : Option UiMessage × Learning × ProgressTable × Nat),
    Learning.next classic ρ l pt cur pass fuel = Except.ok r → r.2.2.1.age = pt.age
  | 0, l, pt, cur, pass, r, h => absurd h (by simp [Learning.next])
  | fuel + 1, l, pt, cur, pass, r, h => by
    unfold Learning.next at h
    split at h
    · split at h
      · injection h with h'
        subst h'
        rfl
      · exact learning_next_age classic ρ fuel _ pt cur pass r h
    · rename_i ls heq
      cases hls : LearnSingle.next classic ρ ls pt cur pass fuel with
      | error e =>
        rw [hls] at h
        simp [Bind.bind, Except.bind] at h
      | ok rr =>
        rw [hls] at h
        simp only [Bind.bind, Except.bind] at h
        have hage := learnsingle_next_age classic ρ ls pt cur pass fuel rr hls
        split at h
        · injection h with h'
          subst h'
          exact hage
        · have := learning_next_age classic ρ fuel _ rr.2.2.1 rr.2.2.2 pass r h
          omega

theorem main_next_age (classic : Bool) (ρ : Nat → ℚ) :
    ∀ (fuel : Nat) (m : Main) (pt : ProgressTable) (cur : Nat) (pass : Bool)
    (r : Option UiMessage × Main × ProgressTable × Nat),
    Main.next classic ρ m pt cur pass fuel = Except.ok r → r.2.2.1.age = pt.age
  | 0, m, pt, cur, pass, r, h => absurd h (by simp [Main.next])
  | fuel + 1, m, pt, cur, pass, r, h => by
    unfold Main.next at h
    split at h
    · have := main_next_age classic ρ fuel _ (Assessment.new ρ pt cur).2.1
        (Assessment.new ρ pt cur).2.2 pass r h
      have h2 : (Assessment.new ρ pt cur).2.1.age = pt.age := sre_age pt _ true ρ cur
      omega
    · rename_i a heq2
      cases ha : Assessment.next a fuel with
      | error e =>
        rw [ha] at h
        simp [Bind.bind, Except.bind] at h
      | ok rr =>
        rw [ha] at h
        simp only [Bind.bind, Except.bind] at h
        split at h
        · injection h with h'
          subst h'
          rfl
        · have := main_next_age classic ρ fuel _ (Learning.new pt).2 cur pass r h
          have h2 : (Learning.new pt).2.age = pt.age := sre_age pt _ false _ 0
          omega
    · rename_i lrn heq3
      cases hl : Learning.next classic ρ lrn pt cur pass fuel with
      | error e =>
        rw [hl] at h
        simp [Bind.bind, Except.bind] at h
      | ok rr =>
        rw [hl] at h
        simp only [Bind.bind, Except.bind] at h
        have hage := learning_next_age classic ρ fuel lrn pt cur pass rr hl
        split at h
        · injection h with h'
          subst h'
          exact hage
        · have := main_next_age classic ρ fuel _ (Assessment.new ρ rr.2.2.1 rr.2.2.2).2.1
            (Assessment.new ρ rr.2.2.1 rr.2.2.2).2.2 pass r h
          have h2 : (Assessment.new ρ rr.2.2.1 rr.2.2.2).2.1.age = rr.2.2.1.age :=
            sre_age rr.2.2.1 _ true ρ rr.2.2.2
          omega

theorem nextStep_age (ρ : Nat → ℚ) (sim1 : Simulation) (pass : Bool)
    (msg : UiMessage) (sim' : Simulation)
    (h : Simulation.nextStep ρ sim1 pass = Except.ok (msg, sim')) :
    sim'.pt.age = sim1.pt.age := by
  unfold Simulation.nextStep at h
  cases hm : Main.next sim1.args.classic ρ sim1.state sim1.pt sim1.cur pass
      (MAXDEPTH - 1) with
  | error e =>
    rw [hm] at h
    simp [Bind.bind, Except.bind] at h
  | ok r =>
    rw [hm] at h
    simp only [Bind.bind, Except.bind] at h
    have hage := main_next_age sim1.args.classic ρ (MAXDEPTH - 1) sim1.state sim1.pt
      sim1.cur pass r hm
    split at h
    · injection h with h'
      injection h' with h1 h2
      rw [← h2]
      exact hage
    · exact absurd h (by simp)

/-- **C6 (amended)**: a successful `Simulation::next` call — whether or not it
consumes an answer — leaves the table's age exactly unchanged: the driver
never invokes `step`.  `ProgressTable::step` itself, when called, advances
the age by exactly one tick. -/
theorem C6_next_age_unchanged (scoreFn : Int → Nat → ScoreArgs → Int)
    (failBlend : Int → Int → Int) (ρ : Nat → ℚ) :
    (∀ (sim : Simulation) (te : List TableEntry) (post : Option String)
       (msg : UiMessage) (sim' : Simulation),
      Simulation.next scoreFn failBlend ρ sim te post = Except.ok (msg, sim') →
      sim'.pt.age = sim.pt.age) ∧
    (∀ pt : ProgressTable, pt.step.age = pt.age + 1) := by
  constructor
  · intro sim te post msg sim' h
    unfold Simulation.next at h
    split at h
    · exact absurd h (by simp)
    · split at h
      · rename_i ent ans heq1 heq2
        have := nextStep_age ρ _ _ msg sim' h
        rw [this]
        rfl
      · exact nextStep_age ρ sim _ msg sim' h
  · intro pt
    rfl

/-- A session mid-protocol: the driver owes an answer for `Assess 0`, and the
state machine is in an assessment with index 1 still queued. -/
def c6sim : Simulation :=
  { pt := c1pt0
    args := ⟨false⟩
    last_msg := some (TMessage.Assess 0)
    state := ⟨some (Bivariant.V1 ⟨true, [1]⟩)⟩
    cur := 0 }

/-- **C6 (counterexample)**: a `Simulation::next` call that consumes the
answer `"1"` (correct for entry 0) succeeds, *records* the outcome — entry
0's distrust drops from 10000 to 5000 — yet the table's age stays 0; the
claim demands it advance to 1.  No code path of `sim_ex::Simulation::next`
calls `ProgressTable::step`. -/
theorem C6_counterexample :
    c6sim.pt.age = 0 ∧
    (match Simulation.next sfU fb0 rho0 c6sim catAB (some "1") with
      | Except.ok (_, s) => s.pt.age
      | Except.error _ => 99) = 0 ∧
    (match Simulation.next sfU fb0 rho0 c6sim catAB (some "1") with
      | Except.ok (_, s) => (s.pt.entries.getD 0 default).distrust
      | Except.error _ => 99) = 5000 := by
  decide

deriving instance DecidableEq for Except

/-- The state `Simulation::next` produces from `c6sim` on answer `"1"`. -/
def c6sim' : Simulation :=
  { pt := c1pt0.set sfU fb0 0 true
    args := ⟨false⟩
    last_msg := some (TMessage.Assess 1)
    state := ⟨some (Bivariant.V1 ⟨true, []⟩)⟩
    cur := 0 }

theorem C6_witness :
    Simulation.next sfU fb0 rho0 c6sim catAB (some "1")
      = Except.ok (TMessage.Assess 1, c6sim') ∧
    c6sim'.pt.age = c6sim.pt.age ∧
    c1pt0.step.age = c1pt0.age + 1 :=
  ⟨by decide,
   (C6_next_age_unchanged sfU fb0 rho0).1 c6sim catAB (some "1") (TMessage.Assess 1)
     c6sim' (by decide),
   (C6_next_age_unchanged sfU fb0 rho0).2 c1pt0⟩

/-! ## C5 — protocol violations panic; they are not recoverable errors -/

/-- **C5 (amended)**: supplying an answer when the previous message was not
`Assess`, or omitting one after `Assess`, trips the `assert_eq!` guard at
the very top of `Simulation::next`: the call panics (`Panic.assertFailed`)
before any mutation of the table or state machine, so nothing is recorded —
but the panic aborts the session; `next` has no recoverable error channel
(its Rust signature returns `UiMessage`, not `Result`), so the violation is
not reported as a recoverable error the caller could retry from. -/
theorem C5_protocol_violation_panics (scoreFn : Int → Nat → ScoreArgs → Int)
    (failBlend : Int → Int → Int) (ρ : Nat → ℚ) (sim : Simulation)
    (te : List TableEntry) (post : Option String)
    (h : isAssessMsg sim.last_msg ≠ post.isSome) :
    Simulation.next scoreFn failBlend ρ sim te post
      = Except.error Panic.assertFailed := by
  unfold Simulation.next
  rw [if_pos h]

def c5sim : Simulation := Simulation.new c1pt0 ⟨false⟩

/-- **C5 (counterexample)**: on a fresh session (previous message not
`Assess`) supplying an answer — and, symmetrically, omitting the answer owed
after an `Assess` — makes `Simulation::next` hit the `assert_eq!` panic
(`Except.error Panic.assertFailed` in this embedding models the aborting
assertion).  The claim that this is reported as a *recoverable* error with
the session retryable is false: the result is a panic, the same fatal kind
as the depth-limit defect, not an error value like `supply`'s
`OutOfRangeError`. -/
theorem C5_counterexample :
    Simulation.next sfU fb0 rho0 c5sim catAB (some "x")
      = Except.error Panic.assertFailed ∧
    Simulation.next sfU fb0 rho0 c6sim catAB none
      = Except.error Panic.assertFailed := by
  decide

theorem C5_witness :
    isAssessMsg c5sim.last_msg ≠ (some "x").isSome ∧
    Simulation.next sfU fb0 rho0 c5sim catAB (some "x")
      = Except.error Panic.assertFailed :=
  ⟨by decide,
   C5_protocol_violation_panics sfU fb0 rho0 c5sim catAB (some "x") (by decide)⟩
